import Mathlib

/-!
Shallow embedding of the tangle (DAG ledger) engine of this repository:
`src/tangle.hpp` (TransactionNode, Tangle) and `src/networking.hpp`
(NetworkedTangle message listeners).

Modelling conventions:
* Hashes and accounts are opaque identifiers, modelled as `Nat`.  Distinct
  transactions are assumed to have distinct hashes (collision resistance of
  the content hash), so a hash identifies a node.
* Monetary amounts are `double` in the source; the claims under study are
  exact order/sign comparisons on small sums, modelled with `Int`.
* A `TransactionNode` is a `Node` record: its hash, the hashes of its
  immutable parents, its inputs and outputs as (account, amount) pairs, and
  its `isGenesis` flag (default-initialized to `false` in the source).
* The `Tangle` state keeps the genesis hash, the list of node records
  attached to the DAG (a node added with an empty parent list is attached
  nowhere in the C++ graph - nothing points to it - so it is not recorded),
  the per-node mutable children lists (`childrenMap`), and the `tips`
  vector.  `cumulativeWeight` is advisory (used only to bias the random
  walk, which we abstract over) and is not modelled.
* Unbounded C++ loops (BFS of `queryBalance`, the random walk, the walk-set
  generation) are modelled with explicit fuel; sufficiency of the fuel is
  proved where the loop terminates, and nontermination shows up as the
  fuel-out result for every fuel value.
-/

/-- A transaction node: `TransactionNode` of `src/tangle.hpp` (a
`Transaction` plus graph data).  `parents` is the immutable parent list
(stored by hash), `inputs`/`outputs` are the transaction's (account, amount)
pairs, `isGenesis` is the flag declared `= false` at `tangle.hpp:26`. -/
structure Node where
  hash : Nat
  parents : List Nat
  inputs : List (Nat × Int)
  outputs : List (Nat × Int)
  isGenesis : Bool
deriving DecidableEq

/-- The state of a `Tangle` (`src/tangle.hpp:275`): the genesis pointer
(by hash), the node records attached to the DAG, the children lists, and
the `tips` vector.  `childrenMap h` is the children list of the node with
hash `h` (empty for hashes with no node). -/
structure TangleState where
  genesisHash : Nat
  nodes : List Node
  childrenMap : Nat → List Nat
  tips : List Nat

/-- The hashes of the nodes currently attached to the tangle. -/
def hashes (s : TangleState) : List Nat :=
  s.nodes.map (fun n => n.hash)

/-- Look up the attached node with the given hash. -/
def lookupNode (s : TangleState) (h : Nat) : Option Node :=
  s.nodes.find? (fun n => n.hash == h)

/-- `Tangle::find` (`tangle.hpp:326`): `recursiveFind` walks the DAG from
the genesis comparing hashes.  Every attached node is reachable from the
genesis via children links (proved below as an invariant of reachable
states), so the search succeeds exactly on the attached hashes; we model it
as the node lookup. -/
def Tangle.find (s : TangleState) (h : Nat) : Option Node :=
  lookupNode s h

/-- Amount the node's inputs draw from account `a`
(the `balance -= input.amount` loop of `queryBalance`, `tangle.hpp:469`). -/
def inputSum (a : Nat) (n : Node) : Int :=
  ((n.inputs.filter (fun p => p.1 == a)).map (fun p => p.2)).sum

/-- Amount the node's outputs pay to account `a`
(the `balance += output.amount` loop of `queryBalance`, `tangle.hpp:478`). -/
def outputSum (a : Nat) (n : Node) : Int :=
  ((n.outputs.filter (fun p => p.1 == a)).map (fun p => p.2)).sum

/-- Result of `Tangle::queryBalance`: normal return, the thrown
`InvalidBalance` (with the offending node's hash and the negative partial
balance), or fuel exhaustion of the modelled loop. -/
inductive QBRes where
  | ok (b : Int)
  | invalidBalance (h : Nat) (b : Int)
  | fuelOut
deriving DecidableEq

/-- The BFS loop of `Tangle::queryBalance` (`tangle.hpp:454-490`): pop the
head, skip it if already in `foundNodes`, otherwise subtract the inputs
matching the account, throw `InvalidBalance` if the running balance is
negative, add the outputs matching the account, enqueue the children and
mark the head found. -/
def qbRun (s : TangleState) (a : Nat) : Nat → List Nat → List Nat → Int → QBRes
  | _, [], _, bal => QBRes.ok bal
  | 0, _ :: _, _, _ => QBRes.fuelOut
  | Nat.succ fuel, h :: q, found, bal =>
    if h ∈ found then qbRun s a fuel q found bal
    else
      match lookupNode s h with
      | none => qbRun s a fuel q found bal
      | some nd =>
        let bal1 := bal - inputSum a nd
        if bal1 < 0 then QBRes.invalidBalance h bal1
        else qbRun s a fuel (q ++ s.childrenMap h) (found ++ [h]) (bal1 + outputSum a nd)

/-- Fuel sufficient for the `queryBalance` BFS: one initial queue entry
plus one enqueue per child link (each node is expanded at most once thanks
to `foundNodes`). -/
def fuelBound (s : TangleState) : Nat :=
  1 + ((s.nodes.map (fun n => (s.childrenMap n.hash).length)).sum)

/-- `Tangle::queryBalance(account)` (`tangle.hpp:454`): BFS from the
genesis with running balance 0. -/
def Tangle.queryBalance (s : TangleState) (a : Nat) : QBRes :=
  qbRun s a (fuelBound s) [s.genesisHash] [] 0

/-- The partial sums observed by the `queryBalance` BFS right after the
input subtraction of each processed node (the values the `balance < 0`
check inspects), collected without stopping at a negative value. -/
def qbSums (s : TangleState) (a : Nat) : Nat → List Nat → List Nat → Int → List Int
  | _, [], _, _ => []
  | 0, _ :: _, _, _ => []
  | Nat.succ fuel, h :: q, found, bal =>
    if h ∈ found then qbSums s a fuel q found bal
    else
      match lookupNode s h with
      | none => qbSums s a fuel q found bal
      | some nd =>
        let bal1 := bal - inputSum a nd
        bal1 :: qbSums s a fuel (q ++ s.childrenMap h) (found ++ [h]) (bal1 + outputSum a nd)

/-- The partial sums along the whole `queryBalance` traversal for account
`a`. -/
def Tangle.querySums (s : TangleState) (a : Nat) : List Int :=
  qbSums s a (fuelBound s) [s.genesisHash] [] 0

/-- Net amount the whole DAG credits to account `a`: the sum over all
attached nodes of outputs to `a` minus inputs from `a`. -/
def netSum (s : TangleState) (a : Nat) : Int :=
  (s.nodes.map (fun n => outputSum a n - inputSum a n)).sum

/-- The cache-lookup loop of `Tangle::add` (`tangle.hpp:354-361`): scan
`balanceMap` for the account, incrementing `i` BEFORE the comparison and
breaking on a match; returns the final `i` and the balance found (`-1`
when absent).  Note the source increments `i` before testing, so on a
match at index `j` the returned `i` is `j + 1`. -/
def cacheFind (a : Nat) : List (Nat × Int) → Nat → Nat × Int
  | [], i => (i, -1)
  | p :: rest, i => if p.1 == a then (i + 1, p.2) else cacheFind a rest (i + 1)

/-- Errors thrown by `Tangle::add`. -/
inductive AddErr where
  | invalidBalance (a : Nat) (b : Int)
  | nodeNotFound (h : Nat)
  | duplicateChild (p : Nat) (h : Nat)
  | fuelExhausted
deriving DecidableEq

/-- The input-balance validation loop of `Tangle::add`
(`tangle.hpp:347-374`), including the source's off-by-one cache update:
after a hit at index `j` the code holds `i = j + 1`, so it appends a
duplicate entry when the hit was the last entry (`i == size`) and
otherwise overwrites the entry at `j + 1`. -/
def balLoop (s : TangleState) : List (Nat × Int) → List (Nat × Int) → Except AddErr Unit
  | [], _ => Except.ok ()
  | (acct, amt) :: rest, bmap =>
    let r := cacheFind acct bmap 0
    let i := r.1
    let res := if r.2 < 0 then Tangle.queryBalance s acct else QBRes.ok r.2
    match res with
    | QBRes.fuelOut => Except.error AddErr.fuelExhausted
    | QBRes.invalidBalance _ b => Except.error (AddErr.invalidBalance acct b)
    | QBRes.ok bal0 =>
      let bal := bal0 - amt
      if bal < 0 then Except.error (AddErr.invalidBalance acct bal)
      else
        let bmap2 :=
          if i = bmap.length then bmap ++ [(acct, bal)]
          else
            match bmap[i]? with
            | some entry => bmap.set i (entry.1, bal)
            | none => bmap
        balLoop s rest bmap2

/-- The per-parent validation loop of `Tangle::add` (`tangle.hpp:378-387`):
each parent must be in the graph, and the node must not already be one of
its children. -/
def parentsCheck (s : TangleState) (nh : Nat) : List Nat → Except AddErr Unit
  | [] => Except.ok ()
  | p :: rest =>
    if (Tangle.find s p).isNone then Except.error (AddErr.nodeNotFound p)
    else if nh ∈ s.childrenMap p then Except.error (AddErr.duplicateChild p nh)
    else parentsCheck s nh rest

/-- One iteration of the attach loop of `Tangle::add` (`tangle.hpp:394-403`):
erase the parent from `tips`, append the node to the parent's children,
push the node onto `tips`.  Note the push happens once PER PARENT. -/
def attachOne (nh p : Nat) (s : TangleState) : TangleState :=
  { s with
    tips := (s.tips.filter (fun t => t != p)) ++ [nh],
    childrenMap := fun x => if x = p then s.childrenMap p ++ [nh] else s.childrenMap x }

/-- The attach loop of `Tangle::add` over all parents, in order. -/
def attachAll (nh : Nat) : List Nat → TangleState → TangleState
  | [], s => s
  | p :: rest, s => attachAll nh rest (attachOne nh p s)

/-- `Tangle::add` (`tangle.hpp:336-413`).  The three `validateTransaction*`
calls live in `transaction.hpp`, which is not part of the sources under
study; the claims all concern nodes whose transaction validations pass, so
they are modelled as passing.  After them come the balance-check loop, the
per-parent checks, and the attach loop; a node with an empty parent list is
attached nowhere (nothing in the graph points to it), so it is not recorded
among the attached nodes.  The detached weight-update thread only touches
the advisory `cumulativeWeight` and is not modelled. -/
def Tangle.add (s : TangleState) (n : Node) : Except AddErr TangleState :=
  match balLoop s n.inputs [] with
  | Except.error e => Except.error e
  | Except.ok _ =>
    match parentsCheck s n.hash n.parents with
    | Except.error e => Except.error e
    | Except.ok _ =>
      let s1 := attachAll n.hash n.parents s
      Except.ok { s1 with nodes := if n.parents.isEmpty then s1.nodes else s1.nodes ++ [n] }

/-- Errors thrown by `Tangle::removeTip`. -/
inductive RemoveErr where
  | nodeNotFound (h : Nat)
  | notATip (h : Nat)
deriving DecidableEq

/-- One iteration of the detach loop of `Tangle::removeTip`
(`tangle.hpp:433-440`): erase the node from the parent's children list and,
if that list is now empty, push the parent onto `tips`. -/
def detachOne (h p : Nat) (s : TangleState) : TangleState :=
  let ch := (s.childrenMap p).filter (fun c => c != h)
  { s with
    childrenMap := fun x => if x = p then ch else s.childrenMap x,
    tips := if ch.isEmpty then s.tips ++ [p] else s.tips }

/-- The detach loop of `Tangle::removeTip` over all parents, in order. -/
def detachAll (h : Nat) : List Nat → TangleState → TangleState
  | [], s => s
  | p :: rest, s => detachAll h rest (detachOne h p s)

/-- `Tangle::removeTip` (`tangle.hpp:416-451`): a null pointer is a silent
no-op; a missing node raises `NodeNotFoundException`; a node with children
raises the non-tip error; otherwise the node is detached from each parent,
erased from `tips`, and dropped from the graph.  The genesis pointer keeps
the genesis alive even when it is removed from `tips`, so the genesis node
stays attached. -/
def Tangle.removeTip (s : TangleState) (node : Option Nat) : Except RemoveErr TangleState :=
  match node with
  | none => Except.ok s
  | some h =>
    match Tangle.find s h with
    | none => Except.error (RemoveErr.nodeNotFound h)
    | some nd =>
      if (s.childrenMap h).isEmpty then
        let s1 := detachAll h nd.parents s
        Except.ok { s1 with
          tips := s1.tips.filter (fun t => t != h),
          nodes := if h = s.genesisHash then s1.nodes
                   else s1.nodes.filter (fun m => m.hash != h) }
      else Except.error (RemoveErr.notATip h)

/-- A tangle holding only a genesis node: the shape produced by the
`Tangle` constructor (`tangle.hpp:300-305`) and by `setGenesis` on a fresh
tangle.  The `tips` vector is default-constructed EMPTY - the genesis is
never inserted into it. -/
def genesisOnly (g : Node) : TangleState :=
  { genesisHash := g.hash, nodes := [g], childrenMap := fun _ => [], tips := [] }

/-- The result state of a successful `add`, used to build concrete
reachable states (falls back to the input state when the add fails). -/
def pushAdd (s : TangleState) (n : Node) : TangleState :=
  match Tangle.add s n with
  | Except.ok t => t
  | Except.error _ => s

/-- States reachable from a tangle holding only a genesis by successful
`Tangle::add` and `Tangle::removeTip` calls.  A non-genesis node is only
ever constructed with a nonempty parent list (its parents are the tips the
random walk selected), and distinct transactions have distinct content
hashes, whence the freshness hypothesis. -/
inductive Reachable : TangleState → Prop where
  | start (g : Node) (hg : g.parents = []) : Reachable (genesisOnly g)
  | stepAdd (s s1 : TangleState) (n : Node) (hr : Reachable s)
      (hpne : n.parents ≠ []) (hfresh : n.hash ∉ hashes s)
      (hok : Tangle.add s n = Except.ok s1) : Reachable s1
  | stepRemove (s s1 : TangleState) (h : Nat) (hr : Reachable s)
      (hok : Tangle.removeTip s (some h) = Except.ok s1) : Reachable s1

/-- Reachability along children links of a children map, from a root. -/
inductive ReachG (g : Nat → List Nat) (root : Nat) : Nat → Prop where
  | refl : ReachG g root root
  | step (b c : Nat) : ReachG g root b → c ∈ g b → ReachG g root c

/-- Children links always point to nodes appearing strictly later in the
node list (nodes are appended in insertion order, and a child is always
inserted after its parents). -/
def Forward (g : Nat → List Nat) : List Node → Prop
  | [] => True
  | n :: rest => (∀ c ∈ g n.hash, c ∈ rest.map (fun m => m.hash)) ∧ Forward g rest

/-- The initial genesis node built by the `Tangle` constructor
(`tangle.hpp:300-305`): no parents, no inputs, no outputs; `isGenesis`
keeps its `false` member initializer (`tangle.hpp:26`) because the
constructor never calls `setGenesis`. -/
def freshGenesis (h : Nat) : Node :=
  { hash := h, parents := [], inputs := [], outputs := [], isGenesis := false }

/-- States reachable by a tangle whose lifecycle also includes
`setGenesis` (`tangle.hpp:311-323`).  The construct step is the `Tangle`
constructor; `setGenesis` marks the new node's `isGenesis` true, drains
the old DAG by repeated `removeTip` calls, and swaps the genesis pointer.
Every `setGenesis` call in the sources passes a parentless node (or null,
which only happens in the destructor).  The tips vector left behind by the
drain loop is not modelled precisely (it can retain the old genesis); the
step therefore allows an arbitrary leftover tips vector. -/
inductive ReachableG : TangleState → Prop where
  | construct (h : Nat) : ReachableG (genesisOnly (freshGenesis h))
  | stepAdd (s s1 : TangleState) (n : Node) (hr : ReachableG s)
      (hpne : n.parents ≠ []) (hfresh : n.hash ∉ hashes s)
      (hok : Tangle.add s n = Except.ok s1) : ReachableG s1
  | stepRemove (s s1 : TangleState) (h : Nat) (hr : ReachableG s)
      (hok : Tangle.removeTip s (some h) = Except.ok s1) : ReachableG s1
  | stepSetGenesis (s : TangleState) (n : Node) (tipsLeft : List Nat)
      (hr : ReachableG s) (hp : n.parents = []) :
      ReachableG { genesisHash := n.hash,
                   nodes := [{ n with isGenesis := true }],
                   childrenMap := fun _ => [],
                   tips := tipsLeft }

/-- `TransactionNode::biasedRandomWalk` (`tangle.hpp:172-209`): at a node
with no children return the node itself; otherwise descend into one of the
children and recurse.  The weighted random selection (weights
`exp(-alpha*(W - W_child))` clamped away from 0, plus the two fallback
corrections at `tangle.hpp:204-205`) always yields an element of the
nonempty children list; which element is chosen is abstracted into the
`pick` function. -/
def biasedRandomWalk (s : TangleState) (pick : Nat → List Nat → Nat) :
    Nat → Nat → Option Nat
  | 0, _ => none
  | Nat.succ fuel, h =>
    if (s.childrenMap h).isEmpty then some h
    else biasedRandomWalk s pick fuel (pick h (s.childrenMap h))

/-- `TransactionNode::depth` (`tangle.hpp:161-169`): 0 at a childless
node, otherwise one more than the maximum depth of the children. -/
def nodeDepth (s : TangleState) : Nat → Nat → Nat
  | 0, _ => 0
  | Nat.succ fuel, h =>
    if (s.childrenMap h).isEmpty then 0
    else ((s.childrenMap h).map (fun c => nodeDepth s fuel c)).foldl max 0 + 1

/-- The queue loop of `TransactionNode::generateWalkSet`
(`tangle.hpp:225-247`).  `thisParents` is the parent list of the node the
member function was invoked on: the source loop at `tangle.hpp:245` reads
`parents[i]` - THIS node's parents - although its own comment says it
searches the head's parents.  A head at the target depth is added to the
output set (deduplicated); a head flagged as genesis short-circuits to the
genesis singleton; any other head enqueues `thisParents` again. -/
def gwsLoop (s : TangleState) (thisParents : List Nat) (target : Nat) :
    Nat → List Nat → List Nat → Option (List Nat)
  | 0, _, _ => none
  | Nat.succ _, [], out => some out
  | Nat.succ fuel, h :: q, out =>
    match lookupNode s h with
    | none => gwsLoop s thisParents target fuel q out
    | some nd =>
      if nodeDepth s s.nodes.length h = target then
        gwsLoop s thisParents target fuel q (if h ∈ out then out else out ++ [h])
      else if nd.isGenesis then some [h]
      else gwsLoop s thisParents target fuel (q ++ thisParents) out

/-- `TransactionNode::generateWalkSet(depth)` (`tangle.hpp:213-250`): seed
the queue with the node's children followed by the node itself, cache the
node's depth, and run the queue loop looking for nodes at depth
`localDepth + depth`. -/
def generateWalkSet (s : TangleState) (h : Nat) (d : Nat) (fuel : Nat) :
    Option (List Nat) :=
  let thisParents := match lookupNode s h with | some nd => nd.parents | none => []
  gwsLoop s thisParents (nodeDepth s s.nodes.length h + d) fuel
    (s.childrenMap h ++ [h]) []

/-- A transaction as carried by the networking layer of
`src/networking.hpp`: its content hash, parent hashes, and amount (this
revision of the networking code predates the inputs/outputs transaction
layout of `tangle.hpp`). -/
structure Tx where
  hash : Nat
  parentHashes : List Nat
  amount : Int
deriving DecidableEq

/-- The node `TransactionNode::create(parents, transaction.amount)` builds
for a received transaction: hashing is deterministic over the content, so
the rebuilt node carries the transaction's hash and parent hashes.  The
amount plays no role in the structural claims under study. -/
def txNode (tx : Tx) : Node :=
  { hash := tx.hash, parents := tx.parentHashes, inputs := [], outputs := [],
    isGenesis := false }

/-- The state of a `NetworkedTangle` (`networking.hpp:12`): the underlying
tangle plus the orphan `networkQueue`. -/
structure NetTangle where
  tangle : TangleState
  networkQueue : List Tx

/-- `NetworkedTangle::AddTransactionRequest::attempToAddTransaction`
(`networking.hpp:140-159`): resolve each parent hash; if one is missing,
re-enqueue the transaction at the back of the network queue (the source
rebuilds an identical transaction from its fields) and stop; otherwise
insert via the base `Tangle::add`, whose exceptions propagate. -/
def attempToAddTransaction (tx : Tx) (nt : NetTangle) : Except AddErr NetTangle :=
  if tx.parentHashes.all (fun h => (Tangle.find nt.tangle h).isSome) then
    match Tangle.add nt.tangle (txNode tx) with
    | Except.ok t1 => Except.ok { nt with tangle := t1 }
    | Except.error e => Except.error e
  else Except.ok { nt with networkQueue := nt.networkQueue ++ [tx] }

/-- The drain loop of `AddTransactionRequest::listener`
(`networking.hpp:129-134`): pop and re-attempt exactly `listSize` queued
transactions; a transaction popped before an exception is lost with it. -/
def drainOnce : Nat → NetTangle → Except AddErr NetTangle
  | 0, nt => Except.ok nt
  | Nat.succ k, nt =>
    match nt.networkQueue with
    | [] => Except.ok nt
    | tx :: rest =>
      match attempToAddTransaction tx { nt with networkQueue := rest } with
      | Except.ok nt1 => drainOnce k nt1
      | Except.error e => Except.error e

/-- An `AddTransactionRequest` message (`networking.hpp:116-120`). -/
structure AddTxMsg where
  validityHash : Nat
  transaction : Tx
deriving DecidableEq

/-- Errors surfaced by the add-transaction listener. -/
inductive NetErr where
  | invalidHash (claimed actual : Nat)
  | addFailed (e : AddErr)
deriving DecidableEq

/-- `NetworkedTangle::AddTransactionRequest::listener`
(`networking.hpp:122-137`): reject a mismatched validity hash, attempt the
carried transaction, then drain the network queue once (`listSize` is read
AFTER the first attempt, so a just-enqueued orphan is popped and re-tried
in the same drain). -/
def addTransactionListener (msg : AddTxMsg) (nt : NetTangle) : Except NetErr NetTangle :=
  if msg.transaction.hash ≠ msg.validityHash then
    Except.error (NetErr.invalidHash msg.validityHash msg.transaction.hash)
  else
    match attempToAddTransaction msg.transaction nt with
    | Except.error e => Except.error (NetErr.addFailed e)
    | Except.ok nt1 =>
      match drainOnce nt1.networkQueue.length nt1 with
      | Except.error e => Except.error (NetErr.addFailed e)
      | Except.ok nt2 => Except.ok nt2

/-- A `SyncGenesisRequest` message (`networking.hpp:90-94`): the claimed
validity hash and the carried genesis transaction. -/
structure SyncGenesisMsg where
  validityHash : Nat
  genesis : Tx
deriving DecidableEq

/-- The slice of `NetworkedTangle` state read and written by the
genesis-sync listener: the current genesis hash and the
`listeningForGenesisSync` flag. -/
structure NetGenesisState where
  genesisHash : Nat
  listeningForGenesisSync : Bool
deriving DecidableEq

/-- `NetworkedTangle::SyncGenesisRequest::listener`
(`networking.hpp:96-112`): throw `InvalidHash` when the carried
transaction's hash differs from the claimed validity hash; ignore the
message when the carried hash equals the current genesis hash; ignore it
when the tangle is not listening for a genesis sync; otherwise overwrite
the genesis pointer with a node rebuilt from the carried transaction
(hashing is deterministic, so its hash is the carried hash) and clear the
flag. -/
def syncGenesisListener (msg : SyncGenesisMsg) (t : NetGenesisState) :
    Except (Nat × Nat) NetGenesisState :=
  if msg.genesis.hash ≠ msg.validityHash then
    Except.error (msg.validityHash, msg.genesis.hash)
  else if t.genesisHash = msg.genesis.hash then Except.ok t
  else if t.listeningForGenesisSync then
    Except.ok { genesisHash := msg.genesis.hash, listeningForGenesisSync := false }
  else Except.ok t

/-- The balance check of `Tangle::add` as the specification words it: for
each input, the running balance of its account starts at `queryBalance`
and accumulates across that account's repeated inputs through a per-call
cache keyed by account; the check fails (returning the account) as soon as
a running balance goes negative.  Second definition kept for comparison
with the source-derived `balLoop`. -/
def specBalLoop (qB : Nat → Int) : List (Nat × Int) → List (Nat × Int) → Option Nat
  | [], _ => none
  | (acct, amt) :: rest, bmap =>
    let bal0 := match bmap.find? (fun p => p.1 == acct) with
      | some p => p.2
      | none => qB acct
    let bal := bal0 - amt
    if bal < 0 then some acct
    else
      let bmap2 := match bmap.findIdx? (fun p => p.1 == acct) with
        | some j => bmap.set j (acct, bal)
        | none => bmap ++ [(acct, bal)]
      specBalLoop qB rest bmap2

/-- Projection of an add result onto its error, for decidable concrete
statements. -/
def addErrOf (r : Except AddErr TangleState) : Option AddErr :=
  match r with
  | Except.error e => some e
  | Except.ok _ => none

/-- Whether an add succeeded. -/
def addOk (r : Except AddErr TangleState) : Bool :=
  match r with
  | Except.ok _ => true
  | Except.error _ => false

/-- The value `queryBalance` returns, defaulting to 0 when it throws
(used to feed the specification-side balance accumulator). -/
def qbValue (s : TangleState) (a : Nat) : Int :=
  match Tangle.queryBalance s a with
  | QBRes.ok b => b
  | QBRes.invalidBalance _ _ => 0
  | QBRes.fuelOut => 0

/-- Helper for concrete example nodes (flag false, as built by
`TransactionNode::create`). -/
def mkNode (h : Nat) (ps : List Nat) (ins outs : List (Nat × Int)) : Node :=
  { hash := h, parents := ps, inputs := ins, outputs := outs, isGenesis := false }

/-- Concrete genesis 0 with two children 1 and 2 and a node 3 approving
both tips, built by successful adds. -/
def c1State : TangleState :=
  pushAdd (pushAdd (pushAdd (genesisOnly (mkNode 0 [] [] []))
    (mkNode 1 [0] [] [])) (mkNode 2 [0] [] [])) (mkNode 3 [1, 2] [] [])

/-- Genesis paying account 7 ten units. -/
def c2gen : Node := mkNode 0 [] [] [(7, 10)]

/-- A node drawing three times 4 units from account 7 (which holds 10):
the sequential balance 10, 6, 2, -2 goes negative on the third input. -/
def c2node : Node := mkNode 1 [0] [(7, 4), (7, 4), (7, 4)] [(8, 12)]

/-- Genesis-only tangle whose genesis pays account 7 ten units. -/
def c5state : TangleState := genesisOnly (mkNode 0 [] [] [(7, 10)])

/-- A node spending account 7's entire balance. -/
def c5node : Node := mkNode 1 [0] [(7, 10)] [(8, 10)]

/-- The tangle after the first successful add of `c5node`. -/
def c5state1 : TangleState := pushAdd c5state c5node

/-- A small two-transfer tangle for evaluating `queryBalance`. -/
def c3state : TangleState :=
  pushAdd (genesisOnly (mkNode 0 [] [] [(7, 10)])) (mkNode 1 [0] [(7, 3)] [(9, 3)])

/-- A genesis with its flag set (as after `setGenesis`). -/
def c8gen : Node :=
  { hash := 0, parents := [], inputs := [], outputs := [], isGenesis := true }

/-- Chain genesis -> 1 -> 2; `generateWalkSet` invoked on node 2 with the
default depth 5 loops forever re-enqueuing node 2's parent. -/
def c8state : TangleState :=
  pushAdd (pushAdd (genesisOnly c8gen) (mkNode 1 [0] [] [])) (mkNode 2 [1] [] [])

/-- Transaction T1 approving the genesis. -/
def c4t1 : Tx := { hash := 1, parentHashes := [0], amount := 5 }

/-- Transaction T2 whose only parent is T1. -/
def c4t2 : Tx := { hash := 2, parentHashes := [1], amount := 5 }

/-- Total length of the children lists of the nodes of `l` not yet in
`found`: the enqueue budget still available to the `queryBalance` BFS. -/
def sumUnfoundL (g : Nat → List Nat) (found : List Nat) : List Node → Nat
  | [] => 0
  | n :: rest =>
    (if n.hash ∈ found then 0 else (g n.hash).length) + sumUnfoundL g found rest

/-- Net contribution to account `a` of the nodes of `l` whose hash is in
`found`. -/
def foundNetL (a : Nat) (found : List Nat) : List Node → Int
  | [] => 0
  | n :: rest =>
    (if n.hash ∈ found then outputSum a n - inputSum a n else 0) + foundNetL a found rest

/-- The structural well-formedness invariant of reachable tangle states. -/
structure WF (s : TangleState) : Prop where
  nodup : (hashes s).Nodup
  genMem : s.genesisHash ∈ hashes s
  genParents : ∀ n ∈ s.nodes, n.hash = s.genesisHash → n.parents = []
  parentsMem : ∀ n ∈ s.nodes, ∀ p ∈ n.parents, p ∈ hashes s
  parentsChild : ∀ n ∈ s.nodes, ∀ p ∈ n.parents, n.hash ∈ s.childrenMap p
  childMem : ∀ p c, c ∈ s.childrenMap p → ∃ m ∈ s.nodes, m.hash = c ∧ p ∈ m.parents
  outsideEmpty : ∀ h, h ∉ hashes s → s.childrenMap h = []
  tipsSpec : ∀ h ∈ s.tips, h ∈ hashes s ∧ s.childrenMap h = []
  tipsComplete : ∀ n ∈ s.nodes, s.childrenMap n.hash = [] →
    n.hash ≠ s.genesisHash → n.hash ∈ s.tips
  forward : Forward s.childrenMap s.nodes
  reach : ∀ n ∈ s.nodes, ReachG s.childrenMap s.genesisHash n.hash

/-! ### Basic lookup facts -/

theorem lookupNode_some {s : TangleState} {h : Nat} {nd : Node}
    (hl : lookupNode s h = some nd) : nd ∈ s.nodes ∧ nd.hash = h := by
  refine ⟨List.mem_of_find?_eq_some hl, ?_⟩
  have := List.find?_some hl
  simpa using this

theorem lookupNode_none {s : TangleState} {h : Nat}
    (hl : lookupNode s h = none) : h ∉ hashes s := by
  intro hmem
  rcases List.mem_map.1 hmem with ⟨m, hm, hmh⟩
  rw [lookupNode, List.find?_eq_none] at hl
  exact hl m hm (by simpa using hmh)

theorem find_isSome_iff {s : TangleState} {h : Nat} :
    (Tangle.find s h).isSome ↔ h ∈ hashes s := by
  rw [Tangle.find, lookupNode, List.find?_isSome]
  constructor
  · rintro ⟨m, hm, hmh⟩
    exact List.mem_map.2 ⟨m, hm, by simpa using hmh⟩
  · intro hmem
    rcases List.mem_map.1 hmem with ⟨m, hm, hmh⟩
    exact ⟨m, hm, by simpa using hmh⟩

theorem mem_hashes_iff {s : TangleState} {h : Nat} :
    h ∈ hashes s ↔ ∃ m ∈ s.nodes, m.hash = h := by
  rw [hashes]
  constructor
  · intro hmem
    rcases List.mem_map.1 hmem with ⟨m, hm, hmh⟩
    exact ⟨m, hm, hmh⟩
  · rintro ⟨m, hm, hmh⟩
    exact List.mem_map.2 ⟨m, hm, hmh⟩

theorem hash_inj {s : TangleState} (hn : (hashes s).Nodup) {m1 m2 : Node}
    (h1 : m1 ∈ s.nodes) (h2 : m2 ∈ s.nodes) (he : m1.hash = m2.hash) : m1 = m2 :=
  List.inj_on_of_nodup_map hn h1 h2 he

/-! ### Attach-loop characterization -/

theorem attachOne_nodes (nh p : Nat) (s : TangleState) :
    (attachOne nh p s).nodes = s.nodes := rfl

theorem attachOne_genesisHash (nh p : Nat) (s : TangleState) :
    (attachOne nh p s).genesisHash = s.genesisHash := rfl

theorem attachAll_nodes (nh : Nat) (ps : List Nat) (s : TangleState) :
    (attachAll nh ps s).nodes = s.nodes := by
  induction ps generalizing s with
  | nil => rfl
  | cons p rest ih => rw [attachAll, ih, attachOne_nodes]

theorem attachAll_genesisHash (nh : Nat) (ps : List Nat) (s : TangleState) :
    (attachAll nh ps s).genesisHash = s.genesisHash := by
  induction ps generalizing s with
  | nil => rfl
  | cons p rest ih => rw [attachAll, ih, attachOne_genesisHash]

theorem attachAll_children (nh : Nat) (ps : List Nat) (s : TangleState) (x : Nat) :
    (attachAll nh ps s).childrenMap x =
      s.childrenMap x ++ List.replicate (ps.count x) nh := by
  induction ps generalizing s with
  | nil => simp [attachAll]
  | cons p rest ih =>
    rw [attachAll, ih]
    by_cases hx : x = p
    · subst hx
      simp [attachOne, List.count_cons_self, List.replicate_succ, List.append_assoc]
    · have : (attachOne nh p s).childrenMap x = s.childrenMap x := by
        simp [attachOne, hx]
      rw [this, List.count_cons_of_ne (by simpa using hx)]

theorem attachAll_tips_mem (nh : Nat) (ps : List Nat) (s : TangleState) (x : Nat)
    (hnp : nh ∉ ps) :
    x ∈ (attachAll nh ps s).tips ↔
      (x ∈ s.tips ∧ x ∉ ps) ∨ (x = nh ∧ ps ≠ []) := by
  induction ps generalizing s with
  | nil => simp [attachAll]
  | cons p rest ih =>
    have hnp' : nh ∉ rest := fun hc => hnp (List.mem_cons_of_mem _ hc)
    rw [attachAll, ih _ hnp']
    have hmid : x ∈ (attachOne nh p s).tips ↔ (x ∈ s.tips ∧ x ≠ p) ∨ x = nh := by
      simp [attachOne, List.mem_filter, bne_iff_ne]
    rw [hmid]
    constructor
    · rintro (⟨(⟨hxt, hxp⟩ | hxnh), hxr⟩ | ⟨hxnh, _⟩)
      · exact Or.inl ⟨hxt, by simp [hxp, hxr]⟩
      · exact Or.inr ⟨hxnh, by simp⟩
      · exact Or.inr ⟨hxnh, by simp⟩
    · rintro (⟨hxt, hxpr⟩ | ⟨hxnh, _⟩)
      · simp only [List.mem_cons, not_or] at hxpr
        exact Or.inl ⟨Or.inl ⟨hxt, hxpr.1⟩, hxpr.2⟩
      · subst hxnh
        exact Or.inl ⟨Or.inr rfl, hnp'⟩

/-! ### Detach-loop characterization -/

theorem detachAll_nodes (h : Nat) (ps : List Nat) (s : TangleState) :
    (detachAll h ps s).nodes = s.nodes := by
  induction ps generalizing s with
  | nil => rfl
  | cons p rest ih => rw [detachAll, ih]; rfl

theorem detachAll_genesisHash (h : Nat) (ps : List Nat) (s : TangleState) :
    (detachAll h ps s).genesisHash = s.genesisHash := by
  induction ps generalizing s with
  | nil => rfl
  | cons p rest ih => rw [detachAll, ih]; rfl

theorem detachAll_children (h : Nat) (ps : List Nat) (s : TangleState) (x : Nat) :
    (detachAll h ps s).childrenMap x =
      if x ∈ ps then (s.childrenMap x).filter (fun c => c != h)
      else s.childrenMap x := by
  induction ps generalizing s with
  | nil => simp [detachAll]
  | cons p rest ih =>
    rw [detachAll, ih]
    by_cases hxr : x ∈ rest
    · by_cases hxp : x = p
      · subst hxp
        simp [detachOne, hxr, List.filter_filter]
      · simp [detachOne, hxr, hxp, List.mem_cons]
    · by_cases hxp : x = p
      · subst hxp
        simp [detachOne, hxr]
      · simp [detachOne, hxr, hxp, List.mem_cons]

theorem detachAll_tips_mem (h : Nat) (ps : List Nat) (s : TangleState) (x : Nat) :
    x ∈ (detachAll h ps s).tips ↔
      x ∈ s.tips ∨ (x ∈ ps ∧ (s.childrenMap x).filter (fun c => c != h) = []) := by
  induction ps generalizing s with
  | nil => simp [detachAll]
  | cons p rest ih =>
    rw [detachAll, ih]
    have hch : ∀ y, (detachOne h p s).childrenMap y =
        if y = p then (s.childrenMap p).filter (fun c => c != h) else s.childrenMap y := by
      intro y; rfl
    have htip : x ∈ (detachOne h p s).tips ↔
        x ∈ s.tips ∨ (x = p ∧ (s.childrenMap p).filter (fun c => c != h) = []) := by
      simp only [detachOne]
      by_cases hemp : ((s.childrenMap p).filter (fun c => c != h)).isEmpty
      · rw [List.isEmpty_iff] at hemp
        simp [hemp]
      · have : ¬ ((s.childrenMap p).filter (fun c => c != h) = []) := by
          intro hc; rw [← List.isEmpty_iff] at hc; exact hemp hc
        simp only [hemp]
        simp [this]
    rw [htip]
    constructor
    · rintro ((hxt | ⟨hxp, hfp⟩) | ⟨hxr, hfx⟩)
      · exact Or.inl hxt
      · subst hxp; exact Or.inr ⟨List.mem_cons_self _ _, hfp⟩
      · rw [hch] at hfx
        by_cases hxp : x = p
        · subst hxp
          simp only [if_pos rfl, List.filter_filter] at hfx
          refine Or.inr ⟨List.mem_cons_self _ _, ?_⟩
          simpa using hfx
        · rw [if_neg hxp] at hfx
          exact Or.inr ⟨List.mem_cons_of_mem _ hxr, hfx⟩
    · rintro (hxt | ⟨hxpr, hfx⟩)
      · exact Or.inl (Or.inl hxt)
      · rcases List.mem_cons.1 hxpr with hxp | hxr
        · subst hxp
          exact Or.inl (Or.inr ⟨rfl, hfx⟩)
        · refine Or.inr ⟨hxr, ?_⟩
          rw [hch]
          by_cases hxp : x = p
          · subst hxp
            simp [List.filter_filter, hfx]
          · rw [if_neg hxp]; exact hfx

/-! ### Success-case destructors for add and removeTip -/

theorem parentsCheck_ok {s : TangleState} {nh : Nat} {ps : List Nat}
    (hok : parentsCheck s nh ps = Except.ok ()) :
    ∀ p ∈ ps, (Tangle.find s p).isSome ∧ nh ∉ s.childrenMap p := by
  induction ps with
  | nil => intro p hp; cases hp
  | cons p rest ih =>
    rw [parentsCheck] at hok
    by_cases h1 : (Tangle.find s p).isNone
    · rw [if_pos h1] at hok; cases hok
    · rw [if_neg h1] at hok
      by_cases h2 : nh ∈ s.childrenMap p
      · rw [if_pos h2] at hok; cases hok
      · rw [if_neg h2] at hok
        intro x hx
        rcases List.mem_cons.1 hx with hxp | hxr
        · subst hxp
          refine ⟨?_, h2⟩
          cases hfind : Tangle.find s x with
          | none => rw [hfind] at h1; exact absurd rfl h1
          | some nd => simp
        · exact ih hok x hxr


theorem add_ok_parts {s s1 : TangleState} {n : Node}
    (hok : Tangle.add s n = Except.ok s1) :
    balLoop s n.inputs [] = Except.ok () ∧
    parentsCheck s n.hash n.parents = Except.ok () ∧
    s1.genesisHash = s.genesisHash ∧
    s1.nodes = (if n.parents.isEmpty then s.nodes else s.nodes ++ [n]) ∧
    s1.childrenMap = (attachAll n.hash n.parents s).childrenMap ∧
    s1.tips = (attachAll n.hash n.parents s).tips := by
  rw [Tangle.add] at hok
  cases hb : balLoop s n.inputs [] with
  | error e => rw [hb] at hok; cases hok
  | ok u =>
    cases u
    rw [hb] at hok
    cases hp : parentsCheck s n.hash n.parents with
    | error e => rw [hp] at hok; cases hok
    | ok u =>
      cases u
      rw [hp] at hok
      simp only [Except.ok.injEq] at hok
      subst hok
      refine ⟨rfl, rfl, ?_, ?_, rfl, rfl⟩
      · exact attachAll_genesisHash n.hash n.parents s
      · rw [attachAll_nodes]

theorem add_ok_parentsMem {s s1 : TangleState} {n : Node}
    (hok : Tangle.add s n = Except.ok s1) : ∀ p ∈ n.parents, p ∈ hashes s := by
  intro p hp
  rcases add_ok_parts hok with ⟨_, hpc, _⟩
  exact find_isSome_iff.1 (parentsCheck_ok hpc p hp).1

theorem removeTip_ok_dest {s s1 : TangleState} {h : Nat}
    (hok : Tangle.removeTip s (some h) = Except.ok s1) :
    ∃ nd, lookupNode s h = some nd ∧ s.childrenMap h = [] ∧
    s1.genesisHash = s.genesisHash ∧
    s1.nodes = (if h = s.genesisHash then s.nodes
                else s.nodes.filter (fun m => m.hash != h)) ∧
    s1.childrenMap = (detachAll h nd.parents s).childrenMap ∧
    s1.tips = (detachAll h nd.parents s).tips.filter (fun t => t != h) := by
  cases hf : Tangle.find s h with
  | none => simp only [Tangle.removeTip, hf] at hok; cases hok
  | some nd =>
    simp only [Tangle.removeTip, hf] at hok
    by_cases hemp : (s.childrenMap h).isEmpty
    · rw [if_pos hemp] at hok
      simp only [Except.ok.injEq] at hok
      subst hok
      refine ⟨nd, hf, List.isEmpty_iff.1 hemp, ?_, ?_, rfl, rfl⟩
      · exact detachAll_genesisHash h nd.parents s
      · rw [detachAll_nodes]
    · rw [if_neg hemp] at hok; cases hok

/-! ### Forward-ordering and reachability preservation -/

theorem forward_append {g g1 : Nat → List Nat} {l : List Node} {n : Node}
    (hf : Forward g l)
    (hsub : ∀ x, ∀ c ∈ g1 x, c ∈ g x ∨ c = n.hash)
    (hn : g1 n.hash = []) :
    Forward g1 (l ++ [n]) := by
  induction l with
  | nil =>
    refine ⟨?_, trivial⟩
    intro c hc
    rw [hn] at hc
    cases hc
  | cons m rest ih =>
    obtain ⟨hm, hrest⟩ := hf
    refine ⟨?_, ih hrest⟩
    intro c hc
    rcases hsub m.hash c hc with hcg | hcn
    · have := hm c hcg
      show c ∈ List.map (fun m => m.hash) (rest ++ [n])
      rw [List.map_append]
      exact List.mem_append_left _ this
    · rw [hcn]
      show n.hash ∈ List.map (fun m => m.hash) (rest ++ [n])
      rw [List.map_append]
      exact List.mem_append_right _ (by simp)

theorem forward_filter {g g1 : Nat → List Nat} {l : List Node} {h : Nat}
    (hf : Forward g l)
    (hsub : ∀ x, ∀ c ∈ g1 x, c ∈ g x ∧ c ≠ h) :
    Forward g1 (l.filter (fun m => m.hash != h)) := by
  induction l with
  | nil => trivial
  | cons m rest ih =>
    obtain ⟨hm, hrest⟩ := hf
    by_cases hmh : m.hash = h
    · rw [List.filter_cons_of_neg (by simpa using hmh)]
      exact ih hrest
    · rw [List.filter_cons_of_pos (by simpa using hmh)]
      refine ⟨?_, ih hrest⟩
      intro c hc
      obtain ⟨hcg, hch⟩ := hsub m.hash c hc
      have := hm c hcg
      rcases List.mem_map.1 this with ⟨m1, hm1, hm1h⟩
      refine List.mem_map.2 ⟨m1, ?_, hm1h⟩
      refine List.mem_filter.2 ⟨hm1, ?_⟩
      simp [hm1h, hch]

theorem reachg_mono {g g1 : Nat → List Nat} {root m : Nat}
    (hsub : ∀ x, ∀ c ∈ g x, c ∈ g1 x) (hr : ReachG g root m) : ReachG g1 root m := by
  induction hr with
  | refl => exact ReachG.refl
  | step b c _ hc ih => exact ReachG.step b c ih (hsub b c hc)

theorem reachg_remove {g g1 : Nat → List Nat} {root h m : Nat}
    (hgh : g h = [])
    (hsub : ∀ x, ∀ c ∈ g x, c ≠ h → c ∈ g1 x)
    (hr : ReachG g root m) : m ≠ h → ReachG g1 root m := by
  induction hr with
  | refl => intro _; exact ReachG.refl
  | step b c _ hc ih =>
    intro hch
    have hbh : b ≠ h := by
      intro hbe
      subst hbe
      rw [hgh] at hc
      cases hc
    exact ReachG.step b c (ih hbh) (hsub b c hc hch)

theorem reachg_closed {g : Nat → List Nat} {root : Nat} {found : List Nat}
    (hroot : root ∈ found) (hcl : ∀ x ∈ found, ∀ c ∈ g x, c ∈ found)
    {m : Nat} (hr : ReachG g root m) : m ∈ found := by
  induction hr with
  | refl => exact hroot
  | step b c _ hc ih => exact hcl b ih c hc

/-! ### The invariant holds in every reachable state -/

theorem wf_start (g : Node) (hg : g.parents = []) : WF (genesisOnly g) := by
  refine ⟨?_, ?_, ?_, ?_, ?_, ?_, ?_, ?_, ?_, ?_, ?_⟩
  · simp [hashes, genesisOnly]
  · simp [hashes, genesisOnly]
  · intro n hn _
    simp only [genesisOnly, List.mem_singleton] at hn
    subst hn
    exact hg
  · intro n hn p hp
    simp only [genesisOnly, List.mem_singleton] at hn
    subst hn
    rw [hg] at hp
    cases hp
  · intro n hn p hp
    simp only [genesisOnly, List.mem_singleton] at hn
    subst hn
    rw [hg] at hp
    cases hp
  · intro p c hc
    cases hc
  · intro h _
    rfl
  · intro h hx
    cases hx
  · intro n hn _ hne
    simp only [genesisOnly, List.mem_singleton] at hn
    subst hn
    exact absurd rfl hne
  · refine ⟨?_, trivial⟩
    intro c hc
    cases hc
  · intro n hn
    simp only [genesisOnly, List.mem_singleton] at hn
    subst hn
    exact ReachG.refl

theorem wf_add {s s1 : TangleState} {n : Node} (hw : WF s)
    (hpne : n.parents ≠ []) (hfresh : n.hash ∉ hashes s)
    (hok : Tangle.add s n = Except.ok s1) : WF s1 := by
  obtain ⟨hb, hpc, hgen, hnodes, hchf, htipf⟩ := add_ok_parts hok
  have hpm : ∀ p ∈ n.parents, p ∈ hashes s :=
    fun p hp => find_isSome_iff.1 (parentsCheck_ok hpc p hp).1
  have hnhp : n.hash ∉ n.parents := fun hc => hfresh (hpm _ hc)
  have hpe : n.parents.isEmpty = false := by
    cases hps : n.parents with
    | nil => exact absurd hps hpne
    | cons a l => rfl
  have hnodes1 : s1.nodes = s.nodes ++ [n] := by
    rw [hnodes, hpe]
    simp
  have hhashes1 : hashes s1 = hashes s ++ [n.hash] := by
    rw [hashes, hnodes1, List.map_append]
    rfl
  have hch1 : ∀ x, s1.childrenMap x =
      s.childrenMap x ++ List.replicate (n.parents.count x) n.hash := by
    intro x
    rw [hchf]
    exact attachAll_children _ _ _ _
  have hchmem : ∀ x c, c ∈ s1.childrenMap x ↔
      c ∈ s.childrenMap x ∨ (c = n.hash ∧ x ∈ n.parents) := by
    intro x c
    rw [hch1, List.mem_append, List.mem_replicate]
    constructor
    · rintro (hcs | ⟨hk, hcn⟩)
      · exact Or.inl hcs
      · refine Or.inr ⟨hcn, ?_⟩
        by_contra hx
        exact hk (List.count_eq_zero.2 hx)
    · rintro (hcs | ⟨hcn, hx⟩)
      · exact Or.inl hcs
      · exact Or.inr ⟨fun h0 => (List.count_eq_zero.1 h0) hx, hcn⟩
  have htips1 : ∀ x, x ∈ s1.tips ↔
      (x ∈ s.tips ∧ x ∉ n.parents) ∨ (x = n.hash ∧ n.parents ≠ []) := by
    intro x
    rw [htipf]
    exact attachAll_tips_mem _ _ _ _ hnhp
  have hchn : s1.childrenMap n.hash = [] := by
    rw [hch1, hw.outsideEmpty _ hfresh, List.count_eq_zero.2 hnhp]
    rfl
  refine ⟨?_, ?_, ?_, ?_, ?_, ?_, ?_, ?_, ?_, ?_, ?_⟩
  · rw [hhashes1]
    refine List.Nodup.append hw.nodup (List.nodup_singleton _) ?_
    intro a ha hb
    rw [List.mem_singleton] at hb
    subst hb
    exact hfresh ha
  · rw [hgen, hhashes1]
    exact List.mem_append_left _ hw.genMem
  · intro m hm hmg
    rw [hgen] at hmg
    rw [hnodes1, List.mem_append] at hm
    rcases hm with hmo | hmn
    · exact hw.genParents m hmo hmg
    · rw [List.mem_singleton] at hmn
      subst hmn
      exact absurd (by rw [hmg]; exact hw.genMem) hfresh
  · intro m hm p hp
    rw [hhashes1]
    rw [hnodes1, List.mem_append] at hm
    rcases hm with hmo | hmn
    · exact List.mem_append_left _ (hw.parentsMem m hmo p hp)
    · rw [List.mem_singleton] at hmn
      subst hmn
      exact List.mem_append_left _ (hpm p hp)
  · intro m hm p hp
    rw [hnodes1, List.mem_append] at hm
    rcases hm with hmo | hmn
    · exact (hchmem p m.hash).2 (Or.inl (hw.parentsChild m hmo p hp))
    · rw [List.mem_singleton] at hmn
      subst hmn
      exact (hchmem p m.hash).2 (Or.inr ⟨rfl, hp⟩)
  · intro p c hc
    rcases (hchmem p c).1 hc with hcs | ⟨hcn, hx⟩
    · rcases hw.childMem p c hcs with ⟨m, hm, hmh, hmp⟩
      exact ⟨m, by rw [hnodes1]; exact List.mem_append_left _ hm, hmh, hmp⟩
    · subst hcn
      exact ⟨n, by rw [hnodes1]; exact List.mem_append_right _ (List.mem_singleton_self _),
        rfl, hx⟩
  · intro x hx
    rw [hhashes1, List.mem_append] at hx
    push_neg at hx
    obtain ⟨hx1, hx2⟩ := hx
    rw [hch1, hw.outsideEmpty x hx1,
      List.count_eq_zero.2 (fun hxp => hx1 (hpm x hxp))]
    rfl
  · intro x hx
    rcases (htips1 x).1 hx with ⟨hxt, hxp⟩ | ⟨hxn, _⟩
    · obtain ⟨hxm, hxe⟩ := hw.tipsSpec x hxt
      refine ⟨by rw [hhashes1]; exact List.mem_append_left _ hxm, ?_⟩
      rw [hch1, hxe, List.count_eq_zero.2 hxp]
      rfl
    · subst hxn
      exact ⟨by rw [hhashes1]; simp, hchn⟩
  · intro m hm hchm hmg
    rw [hgen] at hmg
    rw [hnodes1, List.mem_append] at hm
    rcases hm with hmo | hmn
    · rw [hch1] at hchm
      rcases List.append_eq_nil.1 hchm with ⟨h1, h2⟩
      have hmnp : m.hash ∉ n.parents := by
        intro hmem
        rw [List.eq_nil_iff_forall_not_mem] at h2
        exact h2 n.hash (List.mem_replicate.2
          ⟨fun h0 => (List.count_eq_zero.1 h0) hmem, rfl⟩)
      have := hw.tipsComplete m hmo h1 hmg
      exact (htips1 m.hash).2 (Or.inl ⟨this, hmnp⟩)
    · rw [List.mem_singleton] at hmn
      subst hmn
      exact (htips1 m.hash).2 (Or.inr ⟨rfl, hpne⟩)
  · rw [hnodes1]
    refine forward_append hw.forward ?_ hchn
    intro x c hc
    rcases (hchmem x c).1 hc with hcs | ⟨hcn, _⟩
    · exact Or.inl hcs
    · exact Or.inr hcn
  · have hsubmono : ∀ x, ∀ c ∈ s.childrenMap x, c ∈ s1.childrenMap x :=
      fun x c hc => (hchmem x c).2 (Or.inl hc)
    intro m hm
    rw [hgen]
    rw [hnodes1, List.mem_append] at hm
    rcases hm with hmo | hmn
    · exact reachg_mono hsubmono (hw.reach m hmo)
    · rw [List.mem_singleton] at hmn
      subst hmn
      cases hps : m.parents with
      | nil => exact absurd hps hpne
      | cons p rest =>
        have hpmem : p ∈ m.parents := by rw [hps]; exact List.mem_cons_self _ _
        rcases mem_hashes_iff.1 (hpm p hpmem) with ⟨mp, hmp, hmph⟩
        have hrp : ReachG s1.childrenMap s.genesisHash p := by
          have := reachg_mono hsubmono (hw.reach mp hmp)
          rwa [hmph] at this
        exact ReachG.step p m.hash hrp ((hchmem p m.hash).2 (Or.inr ⟨rfl, hpmem⟩))

theorem wf_remove {s s1 : TangleState} {h : Nat} (hw : WF s)
    (hok : Tangle.removeTip s (some h) = Except.ok s1) : WF s1 := by
  obtain ⟨nd, hl, hchh, hgen, hnodes, hchf, htipf⟩ := removeTip_ok_dest hok
  obtain ⟨hndm, hndh⟩ := lookupNode_some hl
  have hhm : h ∈ hashes s := mem_hashes_iff.2 ⟨nd, hndm, hndh⟩
  have hnotself : h ∉ nd.parents := by
    intro hc
    have := hw.parentsChild nd hndm h hc
    rw [hndh, hchh] at this
    cases this
  have hintoh : ∀ x, h ∈ s.childrenMap x → x ∈ nd.parents := by
    intro x hx
    rcases hw.childMem x h hx with ⟨m, hm, hmh, hmp⟩
    have : m = nd := hash_inj hw.nodup hm hndm (hmh.trans hndh.symm)
    subst this
    exact hmp
  have hch1 : ∀ x, s1.childrenMap x =
      if x ∈ nd.parents then (s.childrenMap x).filter (fun c => c != h)
      else s.childrenMap x := by
    intro x
    rw [hchf]
    exact detachAll_children _ _ _ _
  have hchsub : ∀ x c, c ∈ s1.childrenMap x → c ∈ s.childrenMap x ∧ c ≠ h := by
    intro x c hc
    rw [hch1] at hc
    by_cases hx : x ∈ nd.parents
    · rw [if_pos hx] at hc
      have := List.mem_filter.1 hc
      exact ⟨this.1, by simpa using this.2⟩
    · rw [if_neg hx] at hc
      refine ⟨hc, ?_⟩
      intro hce
      subst hce
      exact hx (hintoh x hc)
  have hchsup : ∀ x c, c ∈ s.childrenMap x → c ≠ h → c ∈ s1.childrenMap x := by
    intro x c hc hcne
    rw [hch1]
    by_cases hx : x ∈ nd.parents
    · rw [if_pos hx]
      exact List.mem_filter.2 ⟨hc, by simpa using hcne⟩
    · rw [if_neg hx]
      exact hc
  have htips1 : ∀ x, x ∈ s1.tips ↔
      ((x ∈ s.tips ∨ (x ∈ nd.parents ∧ (s.childrenMap x).filter (fun c => c != h) = []))
        ∧ x ≠ h) := by
    intro x
    rw [htipf]
    rw [List.mem_filter, detachAll_tips_mem]
    constructor
    · rintro ⟨hx1, hx2⟩
      exact ⟨hx1, by simpa using hx2⟩
    · rintro ⟨hx1, hx2⟩
      exact ⟨hx1, by simpa using hx2⟩
  by_cases hge : h = s.genesisHash
  · -- removing the genesis from the tip set: the node set and children
    -- lists are untouched (the genesis has no parents)
    have hpnil : nd.parents = [] := hw.genParents nd hndm (hndh.trans hge)
    have hnodes1 : s1.nodes = s.nodes := by rw [hnodes, if_pos hge]
    have hhashes1 : hashes s1 = hashes s := by rw [hashes, hnodes1]; rfl
    have hch2 : ∀ x, s1.childrenMap x = s.childrenMap x := by
      intro x
      rw [hch1, hpnil]
      simp
    refine ⟨?_, ?_, ?_, ?_, ?_, ?_, ?_, ?_, ?_, ?_, ?_⟩
    · rw [hhashes1]; exact hw.nodup
    · rw [hgen, hhashes1]; exact hw.genMem
    · intro m hm hmg
      rw [hgen] at hmg
      exact hw.genParents m (hnodes1 ▸ hm) hmg
    · intro m hm p hp
      rw [hhashes1]
      exact hw.parentsMem m (hnodes1 ▸ hm) p hp
    · intro m hm p hp
      rw [hch2]
      exact hw.parentsChild m (hnodes1 ▸ hm) p hp
    · intro p c hc
      rw [hch2] at hc
      rcases hw.childMem p c hc with ⟨m, hm, hmh, hmp⟩
      exact ⟨m, hnodes1 ▸ hm, hmh, hmp⟩
    · intro x hx
      rw [hch2]
      exact hw.outsideEmpty x (hhashes1 ▸ hx)
    · intro x hx
      rcases (htips1 x).1 hx with ⟨hx1 | ⟨hx2, _⟩, hxne⟩
      · obtain ⟨hm, he⟩ := hw.tipsSpec x hx1
        exact ⟨hhashes1 ▸ hm, by rw [hch2]; exact he⟩
      · rw [hpnil] at hx2
        cases hx2
    · intro m hm hchm hmg
      rw [hgen] at hmg
      rw [hch2] at hchm
      have := hw.tipsComplete m (hnodes1 ▸ hm) hchm hmg
      refine (htips1 m.hash).2 ⟨Or.inl this, ?_⟩
      intro hce
      exact hmg (hce.trans hge)
    · have : s1.childrenMap = s.childrenMap := funext hch2
      rw [hnodes1, this]
      exact hw.forward
    · intro m hm
      rw [hgen]
      have : s1.childrenMap = s.childrenMap := funext hch2
      rw [this]
      exact hw.reach m (hnodes1 ▸ hm)
  · -- removing an ordinary tip
    have hgne : s.genesisHash ≠ h := fun hc => hge hc.symm
    have hnodes1 : s1.nodes = s.nodes.filter (fun m => m.hash != h) := by
      rw [hnodes, if_neg hge]
    have hmem1 : ∀ m : Node, m ∈ s1.nodes ↔ m ∈ s.nodes ∧ m.hash ≠ h := by
      intro m
      rw [hnodes1, List.mem_filter]
      constructor
      · rintro ⟨h1, h2⟩; exact ⟨h1, by simpa using h2⟩
      · rintro ⟨h1, h2⟩; exact ⟨h1, by simpa using h2⟩
    have hhmem1 : ∀ x, x ∈ hashes s1 ↔ x ∈ hashes s ∧ x ≠ h := by
      intro x
      constructor
      · intro hx
        rcases mem_hashes_iff.1 hx with ⟨m, hm, hmh⟩
        rcases (hmem1 m).1 hm with ⟨hm1, hm2⟩
        exact ⟨mem_hashes_iff.2 ⟨m, hm1, hmh⟩, hmh ▸ hm2⟩
      · rintro ⟨hx1, hx2⟩
        rcases mem_hashes_iff.1 hx1 with ⟨m, hm, hmh⟩
        exact mem_hashes_iff.2 ⟨m, (hmem1 m).2 ⟨hm, hmh ▸ hx2⟩, hmh⟩
    refine ⟨?_, ?_, ?_, ?_, ?_, ?_, ?_, ?_, ?_, ?_, ?_⟩
    · rw [hashes, hnodes1]
      exact ((List.filter_sublist _).map _).nodup hw.nodup
    · rw [hgen]
      exact (hhmem1 _).2 ⟨hw.genMem, hgne⟩
    · intro m hm hmg
      rw [hgen] at hmg
      exact hw.genParents m ((hmem1 m).1 hm).1 hmg
    · intro m hm p hp
      obtain ⟨hmo, hmne⟩ := (hmem1 m).1 hm
      have hpm := hw.parentsMem m hmo p hp
      have hpne : p ≠ h := by
        intro hce
        subst hce
        have := hw.parentsChild m hmo p hp
        rw [hchh] at this
        cases this
      exact (hhmem1 p).2 ⟨hpm, hpne⟩
    · intro m hm p hp
      obtain ⟨hmo, hmne⟩ := (hmem1 m).1 hm
      exact hchsup p m.hash (hw.parentsChild m hmo p hp) hmne
    · intro p c hc
      obtain ⟨hco, hcne⟩ := hchsub p c hc
      rcases hw.childMem p c hco with ⟨m, hm, hmh, hmp⟩
      exact ⟨m, (hmem1 m).2 ⟨hm, hmh ▸ hcne⟩, hmh, hmp⟩
    · intro x hx
      by_cases hxo : x ∈ hashes s
      · have hxh : x = h := by
          by_contra hne
          exact hx ((hhmem1 x).2 ⟨hxo, hne⟩)
        subst hxh
        rw [hch1, if_neg hnotself]
        exact hchh
      · rw [hch1, hw.outsideEmpty x hxo]
        simp
    · intro x hx
      rcases (htips1 x).1 hx with ⟨hx1 | ⟨hx2, hx3⟩, hxne⟩
      · obtain ⟨hm, he⟩ := hw.tipsSpec x hx1
        refine ⟨(hhmem1 x).2 ⟨hm, hxne⟩, ?_⟩
        rw [hch1]
        by_cases hxp : x ∈ nd.parents
        · rw [if_pos hxp, he]; rfl
        · rw [if_neg hxp]; exact he
      · refine ⟨(hhmem1 x).2 ⟨hw.parentsMem nd hndm x hx2, hxne⟩, ?_⟩
        rw [hch1, if_pos hx2]
        exact hx3
    · intro m hm hchm hmg
      rw [hgen] at hmg
      obtain ⟨hmo, hmne⟩ := (hmem1 m).1 hm
      rw [hch1] at hchm
      by_cases hxp : m.hash ∈ nd.parents
      · rw [if_pos hxp] at hchm
        exact (htips1 m.hash).2 ⟨Or.inr ⟨hxp, hchm⟩, hmne⟩
      · rw [if_neg hxp] at hchm
        exact (htips1 m.hash).2 ⟨Or.inl (hw.tipsComplete m hmo hchm hmg), hmne⟩
    · rw [hnodes1]
      exact forward_filter hw.forward hchsub
    · intro m hm
      rw [hgen]
      obtain ⟨hmo, hmne⟩ := (hmem1 m).1 hm
      exact reachg_remove hchh (fun x c hc hcne => hchsup x c hc hcne)
        (hw.reach m hmo) hmne

/-- Every reachable tangle state satisfies the structural invariant. -/
theorem reachable_wf {s : TangleState} (hr : Reachable s) : WF s := by
  induction hr with
  | start g hg => exact wf_start g hg
  | stepAdd s s1 n _ hpne hfresh hok ih => exact wf_add ih hpne hfresh hok
  | stepRemove s s1 h _ hok ih => exact wf_remove ih hok

/-! ### Claim C1 -/

/-- Claim C1 (amended).  After any sequence of successful `add` and
`removeTip` operations starting from a tangle holding only a genesis,
every entry of the tips collection is an attached node with an empty
children list, and every attached node with an empty children list other
than the genesis occurs among the tips.  (As stated the claim is false:
the genesis is absent from the freshly constructed tips vector, and a node
with several parents is pushed onto the tips once per parent, so it can
occur more than once - see the counterexample.) -/
theorem claim_C1_amended (s : TangleState) (hr : Reachable s) :
    (∀ h ∈ s.tips, h ∈ hashes s ∧ s.childrenMap h = []) ∧
    (∀ n ∈ s.nodes, s.childrenMap n.hash = [] → n.hash ≠ s.genesisHash →
      n.hash ∈ s.tips) := by
  have hw := reachable_wf hr
  exact ⟨hw.tipsSpec, hw.tipsComplete⟩

/-- Claim C1 counterexample: a reachable tangle (genesis 0 with children
1 and 2, then node 3 approving both) whose tips vector is `[3, 3]` - node
3 occurs twice among the tips right after it is added, refuting "each
such node occurring exactly once". -/
theorem claim_C1_counterexample :
    Reachable c1State ∧ c1State.tips = [3, 3] ∧
      (∀ n ∈ c1State.nodes, c1State.childrenMap n.hash = [] → n.hash = 3) := by
  refine ⟨?_, by decide, by decide⟩
  have h0 : Reachable (genesisOnly (mkNode 0 [] [] [])) := Reachable.start _ rfl
  have h1 := Reachable.stepAdd _ _ (mkNode 1 [0] [] []) h0
    (by decide) (by decide) rfl
  have h2 := Reachable.stepAdd _ _ (mkNode 2 [0] [] []) h1
    (by decide) (by decide) rfl
  exact Reachable.stepAdd _ _ (mkNode 3 [1, 2] [] []) h2
    (by decide) (by decide) rfl

/-- Claim C1 witness: the amended theorem instantiated at the concrete
reachable three-node tangle. -/
theorem claim_C1_witness :
    (∀ h ∈ c1State.tips, h ∈ hashes c1State ∧ c1State.childrenMap h = []) ∧
    (∀ n ∈ c1State.nodes, c1State.childrenMap n.hash = [] →
      n.hash ≠ c1State.genesisHash → n.hash ∈ c1State.tips) := by
  refine claim_C1_amended c1State ?_
  have h0 : Reachable (genesisOnly (mkNode 0 [] [] [])) := Reachable.start _ rfl
  have h1 := Reachable.stepAdd _ _ (mkNode 1 [0] [] []) h0
    (by decide) (by decide) rfl
  have h2 := Reachable.stepAdd _ _ (mkNode 2 [0] [] []) h1
    (by decide) (by decide) rfl
  exact Reachable.stepAdd _ _ (mkNode 3 [1, 2] [] []) h2
    (by decide) (by decide) rfl

/-! ### Termination of the queryBalance BFS -/


/-! ### Termination of the queryBalance BFS -/

theorem sumUnfoundL_mono (g : Nat → List Nat) {found1 found2 : List Nat}
    (hsub : ∀ x, x ∈ found1 → x ∈ found2) (l : List Node) :
    sumUnfoundL g found2 l ≤ sumUnfoundL g found1 l := by
  induction l with
  | nil => exact Nat.le_refl _
  | cons m rest ih =>
    rw [sumUnfoundL, sumUnfoundL]
    refine Nat.add_le_add ?_ ih
    by_cases h1 : m.hash ∈ found1
    · rw [if_pos h1, if_pos (hsub _ h1)]
    · rw [if_neg h1]
      by_cases h2 : m.hash ∈ found2
      · rw [if_pos h2]
        exact Nat.zero_le _
      · rw [if_neg h2]

theorem sumUnfoundL_drop (g : Nat → List Nat) {found : List Nat} {h : Nat}
    {l : List Node} {nd : Node}
    (hnd : nd ∈ l) (hndh : nd.hash = h) (hh : h ∉ found) :
    sumUnfoundL g (found ++ [h]) l + (g h).length ≤ sumUnfoundL g found l := by
  induction l with
  | nil => cases hnd
  | cons m rest ih =>
    rw [sumUnfoundL, sumUnfoundL]
    by_cases hmh : m.hash = h
    · have hm2 : m.hash ∈ found ++ [h] := by
        rw [hmh]; exact List.mem_append_right _ (List.mem_singleton_self _)
      rw [if_pos hm2, if_neg (by rw [hmh]; exact hh), hmh]
      have hmono := @sumUnfoundL_mono g found (found ++ [h])
        (fun x hx => List.mem_append_left _ hx) rest
      omega
    · rcases List.mem_cons.1 hnd with hne | hnr
      · exact absurd (hne ▸ hndh) hmh
      · have heq : (m.hash ∈ found ++ [h]) ↔ m.hash ∈ found := by
          rw [List.mem_append, List.mem_singleton]
          constructor
          · rintro (hx | hx)
            · exact hx
            · exact absurd hx hmh
          · exact Or.inl
        have := ih hnr
        by_cases hm1 : m.hash ∈ found
        · rw [if_pos hm1, if_pos (heq.2 hm1)]
          omega
        · rw [if_neg hm1, if_neg (fun hc => hm1 (heq.1 hc))]
          omega

theorem qbRun_fuel (s : TangleState) (a : Nat) : ∀ fuel q found bal,
    q.length + sumUnfoundL s.childrenMap found s.nodes ≤ fuel →
    qbRun s a fuel q found bal ≠ QBRes.fuelOut := by
  intro fuel
  induction fuel with
  | zero =>
    intro q found bal hle
    cases q with
    | nil => intro hc; cases hc
    | cons h q' => simp at hle
  | succ f ih =>
    intro q found bal hle
    cases q with
    | nil => intro hc; cases hc
    | cons h q' =>
      simp only [qbRun]
      rw [List.length_cons] at hle
      by_cases hf : h ∈ found
      · rw [if_pos hf]
        exact ih q' found bal (by omega)
      · rw [if_neg hf]
        cases hl : lookupNode s h with
        | none => exact ih q' found bal (by omega)
        | some nd =>
          dsimp only
          by_cases hneg : bal - inputSum a nd < 0
          · rw [if_pos hneg]
            intro hc; cases hc
          · rw [if_neg hneg]
            obtain ⟨hmem, hh⟩ := lookupNode_some hl
            have hdrop := sumUnfoundL_drop s.childrenMap hmem hh hf
            refine ih _ _ _ ?_
            rw [List.length_append]
            omega

/-! ### The thrown InvalidBalance is exactly a negative BFS partial sum -/

theorem qbRun_invalid_iff (s : TangleState) (a : Nat) : ∀ fuel q found bal,
    (∃ h2 b, qbRun s a fuel q found bal = QBRes.invalidBalance h2 b) ↔
    ∃ x ∈ qbSums s a fuel q found bal, x < 0 := by
  intro fuel
  induction fuel with
  | zero =>
    intro q found bal
    cases q with
    | nil => simp [qbRun, qbSums]
    | cons h q' => simp [qbRun, qbSums]
  | succ f ih =>
    intro q found bal
    cases q with
    | nil => simp [qbRun, qbSums]
    | cons h q' =>
      simp only [qbRun, qbSums]
      by_cases hf : h ∈ found
      · rw [if_pos hf, if_pos hf]
        exact ih q' found bal
      · rw [if_neg hf, if_neg hf]
        cases hl : lookupNode s h with
        | none =>
          dsimp only
          exact ih q' found bal
        | some nd =>
          dsimp only
          by_cases hneg : bal - inputSum a nd < 0
          · rw [if_pos hneg]
            constructor
            · intro _
              exact ⟨bal - inputSum a nd, List.mem_cons_self _ _, hneg⟩
            · intro _
              exact ⟨h, bal - inputSum a nd, rfl⟩
          · rw [if_neg hneg]
            rw [ih (q' ++ s.childrenMap h) (found ++ [h])
              (bal - inputSum a nd + outputSum a nd)]
            constructor
            · rintro ⟨x, hx, hxneg⟩
              exact ⟨x, List.mem_cons_of_mem _ hx, hxneg⟩
            · rintro ⟨x, hx, hxneg⟩
              rcases List.mem_cons.1 hx with hxe | hxm
              · subst hxe
                exact absurd hxneg hneg
              · exact ⟨x, hxm, hxneg⟩

/-! ### The BFS visits every attached node exactly once -/

theorem foundNetL_congr (a : Nat) {found : List Nat} {h : Nat} {l : List Node}
    (hfree : ∀ m ∈ l, m.hash ≠ h) :
    foundNetL a (found ++ [h]) l = foundNetL a found l := by
  induction l with
  | nil => rfl
  | cons m rest ih =>
    rw [foundNetL, foundNetL]
    have hmh := hfree m (List.mem_cons_self _ _)
    have hiff : (m.hash ∈ found ++ [h]) ↔ m.hash ∈ found := by
      rw [List.mem_append, List.mem_singleton]
      constructor
      · rintro (hx | hx)
        · exact hx
        · exact absurd hx hmh
      · exact Or.inl
    have hrest := ih (fun x hx => hfree x (List.mem_cons_of_mem _ hx))
    by_cases hm1 : m.hash ∈ found
    · rw [if_pos hm1, if_pos (hiff.2 hm1), hrest]
    · rw [if_neg hm1, if_neg (fun hc => hm1 (hiff.1 hc)), hrest]

theorem foundNetL_step (a : Nat) {found : List Nat} {h : Nat} {l : List Node}
    {nd : Node} (hl : (l.map (fun n => n.hash)).Nodup)
    (hnd : nd ∈ l) (hndh : nd.hash = h) (hh : h ∉ found) :
    foundNetL a (found ++ [h]) l =
      foundNetL a found l + (outputSum a nd - inputSum a nd) := by
  induction l with
  | nil => cases hnd
  | cons m rest ih =>
    rw [List.map_cons, List.nodup_cons] at hl
    obtain ⟨hm_out, hrest_nodup⟩ := hl
    rw [foundNetL, foundNetL]
    by_cases hmh : m.hash = h
    · have hndm : nd = m := by
        rcases List.mem_cons.1 hnd with he | hr
        · exact he
        · exfalso
          apply hm_out
          rw [hmh, ← hndh]
          exact List.mem_map.2 ⟨nd, hr, rfl⟩
      subst hndm
      have hmem2 : nd.hash ∈ found ++ [h] := by
        rw [hndh]
        exact List.mem_append_right _ (List.mem_singleton_self _)
      rw [if_pos hmem2, if_neg (fun hc => hh (hndh ▸ hc))]
      have hfree : ∀ x ∈ rest, x.hash ≠ h := by
        intro x hx hc
        apply hm_out
        rw [hmh, ← hc]
        exact List.mem_map.2 ⟨x, hx, rfl⟩
      rw [foundNetL_congr a hfree]
      ring
    · have hnr : nd ∈ rest := by
        rcases List.mem_cons.1 hnd with he | hr
        · exact absurd (he ▸ hndh) hmh
        · exact hr
      have hiff : (m.hash ∈ found ++ [h]) ↔ m.hash ∈ found := by
        rw [List.mem_append, List.mem_singleton]
        constructor
        · rintro (hx | hx)
          · exact hx
          · exact absurd hx hmh
        · exact Or.inl
      have hrec := ih hrest_nodup hnr
      by_cases hm1 : m.hash ∈ found
      · rw [if_pos hm1, if_pos (hiff.2 hm1), hrec]
        ring
      · rw [if_neg hm1, if_neg (fun hc => hm1 (hiff.1 hc)), hrec]
        ring

theorem foundNetL_full (a : Nat) {found : List Nat} {l : List Node}
    (hall : ∀ m ∈ l, m.hash ∈ found) :
    foundNetL a found l = (l.map (fun n => outputSum a n - inputSum a n)).sum := by
  induction l with
  | nil => rfl
  | cons m rest ih =>
    rw [foundNetL, List.map_cons, List.sum_cons,
      if_pos (hall m (List.mem_cons_self _ _)),
      ih (fun x hx => hall x (List.mem_cons_of_mem _ hx))]

theorem qbRun_ok_sum (s : TangleState) (a : Nat) (hw : WF s) : ∀ fuel q found bal,
    (∀ x ∈ q, x ∈ hashes s) →
    (∀ x ∈ found, x ∈ hashes s) →
    found.Nodup →
    (∀ x ∈ found, ∀ c ∈ s.childrenMap x, c ∈ found ∨ c ∈ q) →
    (s.genesisHash ∈ found ∨ s.genesisHash ∈ q) →
    bal = foundNetL a found s.nodes →
    ∀ b, qbRun s a fuel q found bal = QBRes.ok b → b = netSum s a := by
  intro fuel
  induction fuel with
  | zero =>
    intro q found bal hq hfm hfn hcl hgen hbal b hok
    cases q with
    | cons h q' => cases hok
    | nil =>
      have hb : b = bal := by
        rw [qbRun] at hok
        cases hok
        rfl
      subst hb
      rw [hbal]
      have hgenf : s.genesisHash ∈ found := by
        rcases hgen with hx | hx
        · exact hx
        · cases hx
      have hclf : ∀ x ∈ found, ∀ c ∈ s.childrenMap x, c ∈ found := by
        intro x hx c hc
        rcases hcl x hx c hc with h1 | h1
        · exact h1
        · cases h1
      have hall : ∀ m ∈ s.nodes, m.hash ∈ found :=
        fun m hm => reachg_closed hgenf hclf (hw.reach m hm)
      rw [netSum]
      exact foundNetL_full a hall
  | succ f ih =>
    intro q found bal hq hfm hfn hcl hgen hbal b hok
    cases q with
    | nil =>
      have hb : b = bal := by
        rw [qbRun] at hok
        cases hok
        rfl
      subst hb
      rw [hbal]
      have hgenf : s.genesisHash ∈ found := by
        rcases hgen with hx | hx
        · exact hx
        · cases hx
      have hclf : ∀ x ∈ found, ∀ c ∈ s.childrenMap x, c ∈ found := by
        intro x hx c hc
        rcases hcl x hx c hc with h1 | h1
        · exact h1
        · cases h1
      have hall : ∀ m ∈ s.nodes, m.hash ∈ found :=
        fun m hm => reachg_closed hgenf hclf (hw.reach m hm)
      rw [netSum]
      exact foundNetL_full a hall
    | cons h q' =>
      simp only [qbRun] at hok
      by_cases hf : h ∈ found
      · rw [if_pos hf] at hok
        refine ih q' found bal (fun x hx => hq x (List.mem_cons_of_mem _ hx)) hfm hfn
          ?_ ?_ hbal b hok
        · intro x hx c hc
          rcases hcl x hx c hc with h1 | h1
          · exact Or.inl h1
          · rcases List.mem_cons.1 h1 with h2 | h2
            · exact Or.inl (h2 ▸ hf)
            · exact Or.inr h2
        · rcases hgen with h1 | h1
          · exact Or.inl h1
          · rcases List.mem_cons.1 h1 with h2 | h2
            · exact Or.inl (h2 ▸ hf)
            · exact Or.inr h2
      · rw [if_neg hf] at hok
        cases hl : lookupNode s h with
        | none =>
          exact absurd (hq h (List.mem_cons_self _ _)) (lookupNode_none hl)
        | some nd =>
          rw [hl] at hok
          dsimp only at hok
          by_cases hneg : bal - inputSum a nd < 0
          · rw [if_pos hneg] at hok
            cases hok
          · rw [if_neg hneg] at hok
            obtain ⟨hmem, hh⟩ := lookupNode_some hl
            refine ih (q' ++ s.childrenMap h) (found ++ [h])
              (bal - inputSum a nd + outputSum a nd) ?_ ?_ ?_ ?_ ?_ ?_ b hok
            · intro x hx
              rcases List.mem_append.1 hx with h1 | h1
              · exact hq x (List.mem_cons_of_mem _ h1)
              · rcases hw.childMem h x h1 with ⟨m, hm, hmh, _⟩
                exact mem_hashes_iff.2 ⟨m, hm, hmh⟩
            · intro x hx
              rcases List.mem_append.1 hx with h1 | h1
              · exact hfm x h1
              · rw [List.mem_singleton] at h1
                exact h1 ▸ hq h (List.mem_cons_self _ _)
            · refine List.Nodup.append hfn (List.nodup_singleton _) ?_
              intro x hx1 hx2
              rw [List.mem_singleton] at hx2
              exact hf (hx2 ▸ hx1)
            · intro x hx c hc
              rcases List.mem_append.1 hx with h1 | h1
              · rcases hcl x h1 c hc with h2 | h2
                · exact Or.inl (List.mem_append_left _ h2)
                · rcases List.mem_cons.1 h2 with h3 | h3
                  · exact Or.inl (List.mem_append_right _ (h3 ▸ List.mem_singleton_self _))
                  · exact Or.inr (List.mem_append_left _ h3)
              · rw [List.mem_singleton] at h1
                subst h1
                exact Or.inr (List.mem_append_right _ hc)
            · rcases hgen with h1 | h1
              · exact Or.inl (List.mem_append_left _ h1)
              · rcases List.mem_cons.1 h1 with h2 | h2
                · exact Or.inl (List.mem_append_right _ (h2 ▸ List.mem_singleton_self _))
                · exact Or.inr (List.mem_append_left _ h2)
            · rw [foundNetL_step a hw.nodup hmem hh hf, ← hbal]
              ring

theorem outputSum_nonneg {a : Nat} {n : Node}
    (hout : ∀ p ∈ n.outputs, (0 : Int) ≤ p.2) : 0 ≤ outputSum a n := by
  rw [outputSum]
  refine List.sum_nonneg ?_
  intro x hx
  rcases List.mem_map.1 hx with ⟨p, hp, hpx⟩
  subst hpx
  exact hout p (List.mem_filter.1 hp).1

theorem qbRun_nonneg (s : TangleState) (a : Nat)
    (hout : ∀ n ∈ s.nodes, ∀ p ∈ n.outputs, (0 : Int) ≤ p.2) : ∀ fuel q found bal,
    0 ≤ bal → ∀ b, qbRun s a fuel q found bal = QBRes.ok b → 0 ≤ b := by
  intro fuel
  induction fuel with
  | zero =>
    intro q found bal hpos b hok
    cases q with
    | cons h q' => cases hok
    | nil =>
      rw [qbRun] at hok
      cases hok
      exact hpos
  | succ f ih =>
    intro q found bal hpos b hok
    cases q with
    | nil =>
      rw [qbRun] at hok
      cases hok
      exact hpos
    | cons h q' =>
      simp only [qbRun] at hok
      by_cases hf : h ∈ found
      · rw [if_pos hf] at hok
        exact ih q' found bal hpos b hok
      · rw [if_neg hf] at hok
        cases hl : lookupNode s h with
        | none =>
          rw [hl] at hok
          dsimp only at hok
          exact ih q' found bal hpos b hok
        | some nd =>
          rw [hl] at hok
          dsimp only at hok
          by_cases hneg : bal - inputSum a nd < 0
          · rw [if_pos hneg] at hok
            cases hok
          · rw [if_neg hneg] at hok
            have h1 : (0 : Int) ≤ bal - inputSum a nd := by omega
            have h2 : (0 : Int) ≤ outputSum a nd :=
              outputSum_nonneg (hout nd (lookupNode_some hl).1)
            exact ih _ _ _ (by omega) b hok

theorem sumUnfoundL_empty (g : Nat → List Nat) (l : List Node) :
    sumUnfoundL g [] l = (l.map (fun n => (g n.hash).length)).sum := by
  induction l with
  | nil => rfl
  | cons m rest ih =>
    rw [sumUnfoundL, List.map_cons, List.sum_cons, ih, if_neg (List.not_mem_nil _)]

theorem foundNetL_empty (a : Nat) (l : List Node) : foundNetL a [] l = 0 := by
  induction l with
  | nil => rfl
  | cons m rest ih =>
    rw [foundNetL, ih, if_neg (List.not_mem_nil _)]
    rfl

/-! ### Claim C3 -/

/-- Claim C3.  For every account and every reachable DAG (with the data
model's nonnegative output amounts), `queryBalance` terminates (the BFS
fuel bound is never exhausted); when it returns a value, that value equals
the sum over all distinct attached nodes of outputs to the account minus
inputs from it, and is nonnegative; and it throws `InvalidBalance` exactly
when some partial sum along the breadth-first traversal from the genesis
is negative. -/
theorem claim_C3 (s : TangleState) (a : Nat) (hr : Reachable s)
    (hout : ∀ n ∈ s.nodes, ∀ p ∈ n.outputs, (0 : Int) ≤ p.2) :
    Tangle.queryBalance s a ≠ QBRes.fuelOut ∧
    (∀ b, Tangle.queryBalance s a = QBRes.ok b → b = netSum s a ∧ 0 ≤ b) ∧
    ((∃ h b, Tangle.queryBalance s a = QBRes.invalidBalance h b) ↔
      ∃ x ∈ Tangle.querySums s a, x < 0) := by
  have hw := reachable_wf hr
  refine ⟨?_, ?_, ?_⟩
  · apply qbRun_fuel
    rw [sumUnfoundL_empty]
    rw [fuelBound]
    simp
  · intro b hok
    constructor
    · refine qbRun_ok_sum s a hw _ _ _ _ ?_ ?_ ?_ ?_ ?_ ?_ b hok
      · intro x hx
        rw [List.mem_singleton] at hx
        subst hx
        exact hw.genMem
      · intro x hx
        cases hx
      · exact List.nodup_nil
      · intro x hx
        cases hx
      · exact Or.inr (List.mem_singleton_self _)
      · rw [foundNetL_empty]
    · exact qbRun_nonneg s a hout _ _ _ _ (le_refl 0) b hok
  · exact qbRun_invalid_iff s a _ _ _ _

/-- Claim C3 witness: the theorem instantiated at a concrete reachable
two-node tangle (genesis pays account 7 ten units, node 1 moves three of
them to account 9), for account 7. -/
theorem claim_C3_witness :
    Tangle.queryBalance c3state 7 ≠ QBRes.fuelOut ∧
    (∀ b, Tangle.queryBalance c3state 7 = QBRes.ok b → b = netSum c3state 7 ∧ 0 ≤ b) ∧
    ((∃ h b, Tangle.queryBalance c3state 7 = QBRes.invalidBalance h b) ↔
      ∃ x ∈ Tangle.querySums c3state 7, x < 0) := by
  refine claim_C3 c3state 7 ?_ (by decide)
  exact Reachable.stepAdd _ _ (mkNode 1 [0] [(7, 3)] [(9, 3)])
    (Reachable.start (mkNode 0 [] [] [(7, 10)]) rfl) (by decide) (by decide) rfl

/-! ### Claim C2 -/

/-- Claim C2 (code bug).  The balance check of `Tangle::add` increments
the cache index BEFORE comparing (`i++` precedes the account test at
`tangle.hpp:355-357`), so the cache update lands one entry past the hit:
the specification's sequential accumulation (10 -> 6 -> 2 -> -2 for three
inputs of 4 against a balance of 10) goes negative and must fail with
`InvalidBalance`, yet the source accepts the node - and the resulting DAG
is corrupt: `queryBalance` on it now throws `InvalidBalance`. -/
theorem claim_C2_bug :
    addOk (Tangle.add (genesisOnly c2gen) c2node) = true ∧
    specBalLoop (qbValue (genesisOnly c2gen)) c2node.inputs [] = some 7 ∧
    Tangle.queryBalance (pushAdd (genesisOnly c2gen) c2node) 7 =
      QBRes.invalidBalance 1 (-2) :=
  ⟨by decide, by decide, by decide⟩

/-! ### Claim C5 -/

theorem queryBalance_ne_fuelOut (s : TangleState) (a : Nat) :
    Tangle.queryBalance s a ≠ QBRes.fuelOut := by
  apply qbRun_fuel
  rw [sumUnfoundL_empty, fuelBound]
  simp

theorem balLoop_ne_fuel (s : TangleState) : ∀ inputs bmap,
    balLoop s inputs bmap ≠ Except.error AddErr.fuelExhausted := by
  intro inputs
  induction inputs with
  | nil =>
    intro bmap hc
    cases hc
  | cons p rest ih =>
    intro bmap
    obtain ⟨acct, amt⟩ := p
    simp only [balLoop]
    cases hres : (if (cacheFind acct bmap 0).2 < 0
        then Tangle.queryBalance s acct else QBRes.ok (cacheFind acct bmap 0).2) with
    | fuelOut =>
      exfalso
      by_cases hc : (cacheFind acct bmap 0).2 < 0
      · rw [if_pos hc] at hres
        exact queryBalance_ne_fuelOut s acct hres
      · rw [if_neg hc] at hres
        cases hres
    | invalidBalance h2 b =>
      dsimp only
      intro hc
      cases hc
    | ok bal0 =>
      dsimp only
      by_cases hneg : bal0 - amt < 0
      · rw [if_pos hneg]
        intro hc
        cases hc
      · rw [if_neg hneg]
        exact ih _

theorem balLoop_error_shape (s : TangleState) : ∀ inputs bmap e,
    balLoop s inputs bmap = Except.error e →
    ∃ a b, e = AddErr.invalidBalance a b := by
  intro inputs
  induction inputs with
  | nil =>
    intro bmap e hc
    cases hc
  | cons p rest ih =>
    intro bmap e
    obtain ⟨acct, amt⟩ := p
    simp only [balLoop]
    cases hres : (if (cacheFind acct bmap 0).2 < 0
        then Tangle.queryBalance s acct else QBRes.ok (cacheFind acct bmap 0).2) with
    | fuelOut =>
      exfalso
      by_cases hc : (cacheFind acct bmap 0).2 < 0
      · rw [if_pos hc] at hres
        exact queryBalance_ne_fuelOut s acct hres
      · rw [if_neg hc] at hres
        cases hres
    | invalidBalance h2 b =>
      dsimp only
      intro hc
      cases hc
      exact ⟨acct, b, rfl⟩
    | ok bal0 =>
      dsimp only
      by_cases hneg : bal0 - amt < 0
      · rw [if_pos hneg]
        intro hc
        cases hc
        exact ⟨acct, bal0 - amt, rfl⟩
      · rw [if_neg hneg]
        exact ih _ _

theorem tangle_ext {s1 s2 : TangleState}
    (h1 : s1.genesisHash = s2.genesisHash) (h2 : s1.nodes = s2.nodes)
    (h3 : s1.childrenMap = s2.childrenMap) (h4 : s1.tips = s2.tips) : s1 = s2 := by
  cases s1
  cases s2
  simp only at h1 h2 h3 h4
  subst h1
  subst h2
  subst h3
  subst h4
  rfl

/-- Claim C5 (amended).  A second `add` of an already-inserted node never
mutates the DAG: when the node has no parents the call is a no-op
returning the unchanged state, and otherwise it throws - either
`DuplicateChild` (the node is already a child of its first parent) or,
because the balance check runs FIRST and now sees the node's own spending,
`InvalidBalance`.  (The claim as stated - "no-op or duplicate-child error"
only - is refuted by the counterexample, where the second call throws
`InvalidBalance`.) -/
theorem claim_C5_amended (s s1 : TangleState) (n : Node)
    (hok : Tangle.add s n = Except.ok s1) :
    (n.parents = [] ∧ Tangle.add s1 n = Except.ok s1) ∨
    (∃ p, p ∈ n.parents ∧
      Tangle.add s1 n = Except.error (AddErr.duplicateChild p n.hash)) ∨
    (∃ a b, Tangle.add s1 n = Except.error (AddErr.invalidBalance a b)) := by
  obtain ⟨hb, hpc, hgen, hnodes, hchf, htipf⟩ := add_ok_parts hok
  by_cases hpe : n.parents = []
  · left
    have hie : n.parents.isEmpty = true := by rw [hpe]; rfl
    have hs : s1 = s := by
      refine tangle_ext hgen ?_ ?_ ?_
      · rw [hnodes, if_pos hie]
      · rw [hchf, hpe]
        rfl
      · rw [htipf, hpe]
        rfl
    refine ⟨hpe, ?_⟩
    rw [hs]
    rw [hs] at hok
    exact hok
  · cases hbl : balLoop s1 n.inputs [] with
    | error e =>
      rcases balLoop_error_shape s1 n.inputs [] e hbl with ⟨a, b, he⟩
      subst he
      right; right
      refine ⟨a, b, ?_⟩
      rw [Tangle.add, hbl]
    | ok u =>
      cases u
      right; left
      obtain ⟨p, rest, hps⟩ := List.exists_cons_of_ne_nil hpe
      refine ⟨p, by rw [hps]; exact List.mem_cons_self _ _, ?_⟩
      have hfind : (Tangle.find s1 p).isSome := by
        rw [find_isSome_iff]
        have hmem : p ∈ hashes s :=
          find_isSome_iff.1 (parentsCheck_ok hpc p
            (by rw [hps]; exact List.mem_cons_self _ _)).1
        rcases mem_hashes_iff.1 hmem with ⟨m, hm, hmh⟩
        refine mem_hashes_iff.2 ⟨m, ?_, hmh⟩
        rw [hnodes]
        by_cases hie : n.parents.isEmpty
        · rw [if_pos hie]
          exact hm
        · rw [if_neg hie]
          exact List.mem_append_left _ hm
      have hdup : n.hash ∈ s1.childrenMap p := by
        rw [hchf, attachAll_children]
        refine List.mem_append_right _ (List.mem_replicate.2 ⟨?_, rfl⟩)
        intro h0
        have : p ∉ n.parents := List.count_eq_zero.1 h0
        exact this (by rw [hps]; exact List.mem_cons_self _ _)
      have hpc2 : parentsCheck s1 n.hash n.parents =
          Except.error (AddErr.duplicateChild p n.hash) := by
        have hnn : (Tangle.find s1 p).isNone ≠ true := by
          intro hc
          rw [Option.isNone_iff_eq_none] at hc
          rw [hc] at hfind
          cases hfind
        rw [hps, parentsCheck, if_neg hnn, if_pos hdup]
      rw [Tangle.add, hbl, hpc2]

/-- Claim C5 counterexample: the first add of a node spending account 7's
whole balance succeeds; the second add of the same node throws
`InvalidBalance` (the re-run balance check sees the inserted spend), not
the duplicate-child error, and is not a no-op success. -/
theorem claim_C5_counterexample :
    addOk (Tangle.add c5state c5node) = true ∧
    addErrOf (Tangle.add c5state1 c5node) =
      some (AddErr.invalidBalance 7 (-10)) :=
  ⟨by decide, by decide⟩

/-- Claim C5 witness: the amended theorem instantiated at the concrete
spend-everything node. -/
theorem claim_C5_witness :
    (c5node.parents = [] ∧ Tangle.add c5state1 c5node = Except.ok c5state1) ∨
    (∃ p, p ∈ c5node.parents ∧
      Tangle.add c5state1 c5node = Except.error (AddErr.duplicateChild p c5node.hash)) ∨
    (∃ a b, Tangle.add c5state1 c5node = Except.error (AddErr.invalidBalance a b)) :=
  claim_C5_amended c5state c5state1 c5node rfl

/-! ### Claim C10 -/

/-- Claim C10.  `Tangle::removeTip` called with a null node pointer is a
silent no-op: it returns normally (no `NodeNotFound`, no non-tip error)
and leaves the genesis, every children list, and the tips collection
unchanged. -/
theorem claim_C10 (s : TangleState) : Tangle.removeTip s none = Except.ok s := rfl

/-! ### Claim C9 -/

/-- Claim C9.  The `SyncGenesisRequest` listener fails with `InvalidHash`
if and only if the message's validity hash differs from the carried
genesis transaction's hash; with a valid hash it ignores a message whose
genesis hash equals the current one; otherwise it replaces the genesis
with the supplied transaction exactly when `listeningForGenesisSync` is
set, clearing the flag, and does nothing when the flag is clear. -/
theorem claim_C9 (msg : SyncGenesisMsg) (t : NetGenesisState) :
    ((∃ e, syncGenesisListener msg t = Except.error e) ↔
      msg.genesis.hash ≠ msg.validityHash) ∧
    (msg.genesis.hash = msg.validityHash → t.genesisHash = msg.genesis.hash →
      syncGenesisListener msg t = Except.ok t) ∧
    (msg.genesis.hash = msg.validityHash → t.genesisHash ≠ msg.genesis.hash →
      (t.listeningForGenesisSync = true →
        syncGenesisListener msg t = Except.ok
          { genesisHash := msg.genesis.hash, listeningForGenesisSync := false }) ∧
      (t.listeningForGenesisSync = false →
        syncGenesisListener msg t = Except.ok t)) := by
  refine ⟨⟨?_, ?_⟩, ?_, ?_⟩
  · rintro ⟨e, he⟩
    rw [syncGenesisListener] at he
    by_cases h1 : msg.genesis.hash ≠ msg.validityHash
    · exact h1
    · rw [if_neg h1] at he
      by_cases h2 : t.genesisHash = msg.genesis.hash
      · rw [if_pos h2] at he
        cases he
      · rw [if_neg h2] at he
        by_cases h3 : t.listeningForGenesisSync
        · rw [if_pos h3] at he
          cases he
        · rw [if_neg h3] at he
          cases he
  · intro hne
    rw [syncGenesisListener, if_pos hne]
    exact ⟨_, rfl⟩
  · intro h1 h2
    rw [syncGenesisListener, if_neg (fun hc => hc h1), if_pos h2]
  · intro h1 h2
    constructor
    · intro hl
      rw [syncGenesisListener, if_neg (fun hc => hc h1), if_neg h2, if_pos hl]
    · intro hl
      rw [syncGenesisListener, if_neg (fun hc => hc h1), if_neg h2,
        if_neg (by rw [hl]; exact Bool.false_ne_true)]

/-- Claim C9 witness: the listener at a concrete valid message with a new
genesis hash while listening: the genesis is replaced and the flag
cleared. -/
theorem claim_C9_witness :
    syncGenesisListener ⟨5, ⟨5, [], 0⟩⟩ ⟨3, true⟩ =
      Except.ok { genesisHash := 5, listeningForGenesisSync := false } :=
  ((claim_C9 ⟨5, ⟨5, [], 0⟩⟩ ⟨3, true⟩).2.2 rfl (by decide)).1 rfl

/-! ### Claim C8 -/

/-- Claim C8 (code bug).  On the three-node chain genesis -> 1 -> 2, the
walk-set generation that `confirmationConfidence` performs first
(`generateWalkSet(5)` invoked on node 2) never terminates: the queue loop
re-enqueues node 2's own parents (`parents[i]` at `tangle.hpp:245`, where
the source's comment says it should search the HEAD's parents), so the
head never reaches a node at the target depth nor the genesis, and the
claimed >= 100-entry walk set, the genesis fallback, and the confidence
fraction in [0,1] are never produced.  Formally: the loop returns the
fuel-out marker for EVERY fuel value. -/
theorem claim_C8_bug : ∀ fuel, generateWalkSet c8state 2 5 fuel = none := by
  have hloop : ∀ fuel, gwsLoop c8state [1] 5 fuel [1] [] = none := by
    intro fuel
    induction fuel with
    | zero => rfl
    | succ f ih =>
      calc gwsLoop c8state [1] 5 (f + 1) [1] []
          = gwsLoop c8state [1] 5 f [1] [] := rfl
        _ = none := ih
  intro fuel
  cases fuel with
  | zero => rfl
  | succ f1 =>
    cases f1 with
    | zero => rfl
    | succ f =>
      calc generateWalkSet c8state 2 5 (f + 2)
          = gwsLoop c8state [1] 5 f [1] [] := rfl
        _ = none := hloop f

/-! ### Claim C6 -/

theorem find?_append_of_some {α : Type} {p : α → Bool} {l1 l2 : List α} {a : α}
    (h : l1.find? p = some a) : (l1 ++ l2).find? p = some a := by
  induction l1 with
  | nil => cases h
  | cons x rest ih =>
    rw [List.cons_append]
    cases hp : p x with
    | true =>
      rw [List.find?_cons_of_pos _ hp] at h ⊢
      exact h
    | false =>
      rw [List.find?_cons_of_neg _ (by rw [hp]; exact Bool.false_ne_true)] at h ⊢
      exact ih h

theorem find?_hash_of_mem_nodup {l : List Node}
    (hn : (l.map (fun n => n.hash)).Nodup) {m : Node} (hm : m ∈ l) {x : Nat}
    (hx : m.hash = x) : l.find? (fun n => n.hash == x) = some m := by
  induction l with
  | nil => cases hm
  | cons k rest ih =>
    rw [List.map_cons, List.nodup_cons] at hn
    obtain ⟨hk_out, hrest⟩ := hn
    by_cases hkx : k.hash = x
    · rw [List.find?_cons_of_pos _ (by simpa using hkx)]
      rcases List.mem_cons.1 hm with he | hr
      · rw [he]
      · exfalso
        apply hk_out
        rw [hkx, ← hx]
        exact List.mem_map.2 ⟨m, hr, rfl⟩
    · rw [List.find?_cons_of_neg _ (by simpa using hkx)]
      rcases List.mem_cons.1 hm with he | hr
      · exact absurd (he ▸ hx : k.hash = x) hkx
      · exact ih hrest hr

/-- The genesis-lifecycle invariant of states reachable with `setGenesis`
in play: hashes are distinct, the genesis is attached, a node is
parentless exactly when it is the genesis, and the genesis node's
`isGenesis` flag is true unless it is still the untouched initial genesis
of the `Tangle` constructor. -/
theorem reachableG_inv {s : TangleState} (hr : ReachableG s) :
    (hashes s).Nodup ∧ s.genesisHash ∈ hashes s ∧
    (∀ m ∈ s.nodes, m.parents = [] ↔ m.hash = s.genesisHash) ∧
    (∃ g, lookupNode s s.genesisHash = some g ∧
      (g.isGenesis = true ∨ g = freshGenesis s.genesisHash)) := by
  induction hr with
  | construct h =>
    refine ⟨by simp [hashes, genesisOnly, freshGenesis], by simp [hashes, genesisOnly],
      ?_, ⟨freshGenesis h, ?_, Or.inr rfl⟩⟩
    · intro m hm
      simp only [genesisOnly, List.mem_singleton] at hm
      subst hm
      simp [freshGenesis, genesisOnly]
    · simp [lookupNode, genesisOnly, freshGenesis, List.find?]
  | stepAdd s s1 n hr hpne hfresh hok ih =>
    obtain ⟨ihn, ihg, ihr, g, ihl, ihf⟩ := ih
    obtain ⟨hb, hpc, hgen, hnodes, hchf, htipf⟩ := add_ok_parts hok
    have hpe : n.parents.isEmpty = false := by
      cases hps : n.parents with
      | nil => exact absurd hps hpne
      | cons a l => rfl
    have hnodes1 : s1.nodes = s.nodes ++ [n] := by
      rw [hnodes, hpe]
      simp
    have hhashes1 : hashes s1 = hashes s ++ [n.hash] := by
      rw [hashes, hnodes1, List.map_append]
      rfl
    have hng : n.hash ≠ s.genesisHash := by
      intro hc
      exact hfresh (hc ▸ ihg)
    refine ⟨?_, ?_, ?_, ?_⟩
    · rw [hhashes1]
      refine List.Nodup.append ihn (List.nodup_singleton _) ?_
      intro a ha hb2
      rw [List.mem_singleton] at hb2
      subst hb2
      exact hfresh ha
    · rw [hgen, hhashes1]
      exact List.mem_append_left _ ihg
    · intro m hm
      rw [hgen]
      rw [hnodes1, List.mem_append] at hm
      rcases hm with hmo | hmn
      · exact ihr m hmo
      · rw [List.mem_singleton] at hmn
        subst hmn
        constructor
        · intro hc
          exact absurd hc hpne
        · intro hc
          exact absurd hc hng
    · refine ⟨g, ?_, ?_⟩
      · rw [hgen, lookupNode, hnodes1]
        exact find?_append_of_some ihl
      · rw [hgen]
        exact ihf
  | stepRemove s s1 h hr hok ih =>
    obtain ⟨ihn, ihg, ihr, g, ihl, ihf⟩ := ih
    obtain ⟨nd, hl, hchh, hgen, hnodes, hchf, htipf⟩ := removeTip_ok_dest hok
    obtain ⟨hgm, hgh⟩ := lookupNode_some ihl
    by_cases hge : h = s.genesisHash
    · have hnodes1 : s1.nodes = s.nodes := by rw [hnodes, if_pos hge]
      have hhashes1 : hashes s1 = hashes s := by rw [hashes, hnodes1]; rfl
      refine ⟨hhashes1 ▸ ihn, by rw [hgen, hhashes1]; exact ihg, ?_, ⟨g, ?_, ?_⟩⟩
      · intro m hm
        rw [hgen]
        exact ihr m (hnodes1 ▸ hm)
      · rw [hgen, lookupNode, hnodes1]
        exact ihl
      · rw [hgen]
        exact ihf
    · have hnodes1 : s1.nodes = s.nodes.filter (fun m => m.hash != h) := by
        rw [hnodes, if_neg hge]
      have hsubn : ∀ m : Node, m ∈ s1.nodes → m ∈ s.nodes := by
        intro m hm
        rw [hnodes1] at hm
        exact (List.mem_filter.1 hm).1
      have hnodup1 : (hashes s1).Nodup := by
        rw [hashes, hnodes1]
        exact ((List.filter_sublist _).map _).nodup ihn
      have hgmem1 : g ∈ s1.nodes := by
        rw [hnodes1, List.mem_filter]
        refine ⟨hgm, ?_⟩
        have : g.hash ≠ h := by
          rw [hgh]
          exact fun hc => hge hc.symm
        simpa using this
      refine ⟨hnodup1, ?_, ?_, ⟨g, ?_, ?_⟩⟩
      · rw [hgen]
        exact mem_hashes_iff.2 ⟨g, hgmem1, hgh⟩
      · intro m hm
        rw [hgen]
        exact ihr m (hsubn m hm)
      · rw [hgen, lookupNode]
        exact find?_hash_of_mem_nodup (by rw [← hashes]; exact hnodup1) hgmem1 hgh
      · rw [hgen]
        exact ihf
  | stepSetGenesis s n tipsLeft hr hp ih =>
    refine ⟨by simp [hashes], by simp [hashes], ?_, ?_⟩
    · intro m hm
      simp only [List.mem_singleton] at hm
      subst hm
      simp [hp]
    · refine ⟨{ n with isGenesis := true }, ?_, Or.inl rfl⟩
      simp [lookupNode, List.find?]

/-- Claim C6 (amended).  At all times the tangle has exactly one
parentless node - the node its genesis pointer designates - but the
`isGenesis` flag is set only by `setGenesis`: the genesis of a freshly
constructed `Tangle` has `isGenesis = false` (the constructor at
`tangle.hpp:300-305` never sets it), and any genesis installed by
`setGenesis` has it true.  (The claim's "isGenesis flag is true ...
including for a freshly constructed Tangle" is refuted by the
counterexample.) -/
theorem claim_C6_amended (s : TangleState) (hr : ReachableG s) :
    (∃ g, lookupNode s s.genesisHash = some g ∧ g.parents = [] ∧
      (g.isGenesis = true ∨ g = freshGenesis s.genesisHash)) ∧
    (∀ m ∈ s.nodes, m.parents = [] → m.hash = s.genesisHash) := by
  obtain ⟨hn, hg, hiff, g, hl, hf⟩ := reachableG_inv hr
  obtain ⟨hgm, hgh⟩ := lookupNode_some hl
  exact ⟨⟨g, hl, (hiff g hgm).2 hgh, hf⟩, fun m hm hmp => (hiff m hm).1 hmp⟩

/-- Claim C6 counterexample: the freshly constructed tangle is reachable
and its unique genesis node carries `isGenesis = false`, refuting the
claim for the "before any setGenesis call" case. -/
theorem claim_C6_counterexample :
    ReachableG (genesisOnly (freshGenesis 0)) ∧
    lookupNode (genesisOnly (freshGenesis 0)) 0 = some (freshGenesis 0) ∧
    (freshGenesis 0).isGenesis = false :=
  ⟨ReachableG.construct 0, by decide, rfl⟩

/-- Claim C6 witness: the amended theorem instantiated at a tangle whose
genesis was installed by `setGenesis` after construction. -/
theorem claim_C6_witness :
    (∃ g, lookupNode { genesisHash := 4, nodes := [{ mkNode 4 [] [] [(7, 10)] with
        isGenesis := true }], childrenMap := fun _ => [], tips := [] } 4 = some g ∧
      g.parents = [] ∧ (g.isGenesis = true ∨ g = freshGenesis 4)) ∧
    (∀ m ∈ [{ mkNode 4 [] [] [(7, 10)] with isGenesis := true }],
      m.parents = [] → m.hash = 4) := by
  refine claim_C6_amended _ ?_
  exact ReachableG.stepSetGenesis (genesisOnly (freshGenesis 0))
    (mkNode 4 [] [] [(7, 10)]) [] (ReachableG.construct 0) rfl

/-! ### Claim C7 -/

theorem walk_forward {s : TangleState} {pick : Nat → List Nat → Nat}
    (hp : ∀ x l, l ≠ [] → pick x l ∈ l) :
    ∀ (l : List Node), Forward s.childrenMap l →
    ∀ h ∈ l.map (fun m => m.hash), ∀ fuel, l.length ≤ fuel →
    ∃ t, biasedRandomWalk s pick fuel h = some t ∧
      s.childrenMap t = [] ∧ t ∈ l.map (fun m => m.hash) := by
  intro l
  induction l with
  | nil =>
    intro _ h hm
    cases hm
  | cons m rest ih =>
    intro hf h hm fuel hfl
    obtain ⟨hm_head, hrest⟩ := hf
    rcases List.mem_cons.1 hm with he | hr
    · cases fuel with
      | zero =>
        rw [List.length_cons] at hfl
        omega
      | succ f =>
        by_cases hch : s.childrenMap h = []
        · refine ⟨h, ?_, hch, hm⟩
          rw [biasedRandomWalk, if_pos (List.isEmpty_iff.2 hch)]
        · have hpm : pick h (s.childrenMap h) ∈ s.childrenMap h :=
            hp h (s.childrenMap h) hch
          have he2 : h = m.hash := he
          have hcm : pick h (s.childrenMap h) ∈ rest.map (fun m => m.hash) := by
            rw [he2] at hpm ⊢
            exact hm_head _ hpm
          have hlen : rest.length ≤ f := by
            rw [List.length_cons] at hfl
            omega
          obtain ⟨t, hw1, hw2, hw3⟩ := ih hrest _ hcm f hlen
          refine ⟨t, ?_, hw2, List.mem_cons_of_mem _ hw3⟩
          rw [biasedRandomWalk,
            if_neg (by rw [List.isEmpty_iff]; exact hch)]
          exact hw1
    · obtain ⟨t, hw1, hw2, hw3⟩ := ih hrest h hr fuel
        (by rw [List.length_cons] at hfl; omega)
      exact ⟨t, hw1, hw2, List.mem_cons_of_mem _ hw3⟩

/-- Claim C7.  On every reachable (hence finite and acyclic) tangle,
`biasedRandomWalk` started from any attached node - with the weighted
child selection abstracted as any function returning a member of the
nonempty children list, which the source's selection with its two
fallback corrections always does - terminates within `|nodes|` steps at
an attached node whose children list is empty (a tip); started from a tip
it returns that tip itself. -/
theorem claim_C7 (s : TangleState) (pick : Nat → List Nat → Nat) (h : Nat)
    (hr : Reachable s) (hp : ∀ x l, l ≠ [] → pick x l ∈ l) (hm : h ∈ hashes s) :
    (∃ t, biasedRandomWalk s pick s.nodes.length h = some t ∧
      s.childrenMap t = [] ∧ t ∈ hashes s) ∧
    (s.childrenMap h = [] →
      biasedRandomWalk s pick s.nodes.length h = some h) := by
  have hw := reachable_wf hr
  constructor
  · exact walk_forward hp s.nodes hw.forward h hm s.nodes.length (le_refl _)
  · intro hch
    cases hn : s.nodes with
    | nil =>
      rw [hashes, hn] at hm
      cases hm
    | cons m rest =>
      rw [List.length_cons]
      rw [biasedRandomWalk, if_pos (List.isEmpty_iff.2 hch)]

/-- Claim C7 witness: the walk on the concrete three-node tangle with the
head-choosing selection function, from the genesis and from the tip. -/
theorem claim_C7_witness :
    (∃ t, biasedRandomWalk c1State (fun _ l => l.headD 0) c1State.nodes.length 0 =
        some t ∧ c1State.childrenMap t = [] ∧ t ∈ hashes c1State) ∧
    (c1State.childrenMap 0 = [] →
      biasedRandomWalk c1State (fun _ l => l.headD 0) c1State.nodes.length 0 = some 0) := by
  refine claim_C7 c1State (fun _ l => l.headD 0) 0 ?_ ?_ (by decide)
  · have h0 : Reachable (genesisOnly (mkNode 0 [] [] [])) := Reachable.start _ rfl
    have h1 := Reachable.stepAdd _ _ (mkNode 1 [0] [] []) h0
      (by decide) (by decide) rfl
    have h2 := Reachable.stepAdd _ _ (mkNode 2 [0] [] []) h1
      (by decide) (by decide) rfl
    exact Reachable.stepAdd _ _ (mkNode 3 [1, 2] [] []) h2
      (by decide) (by decide) rfl
  · intro x l hl
    cases l with
    | nil => exact absurd rfl hl
    | cons a t => exact List.mem_cons_self _ _

/-! ### Claim C4 -/

theorem attempt_queue (tx : Tx) (nt nt1 : NetTangle)
    (hok : attempToAddTransaction tx nt = Except.ok nt1) :
    nt1.networkQueue = nt.networkQueue ∨
    nt1.networkQueue = nt.networkQueue ++ [tx] := by
  rw [attempToAddTransaction] at hok
  by_cases hall : (tx.parentHashes.all
      (fun h => (Tangle.find nt.tangle h).isSome)) = true
  · rw [if_pos hall] at hok
    cases hadd : Tangle.add nt.tangle (txNode tx) with
    | ok t1 =>
      rw [hadd] at hok
      cases hok
      left
      rfl
    | error e =>
      rw [hadd] at hok
      cases hok
  · rw [if_neg hall] at hok
    cases hok
    right
    rfl

theorem drain_sublist : ∀ (k : Nat) (nt nt2 : NetTangle),
    k ≤ nt.networkQueue.length → drainOnce k nt = Except.ok nt2 →
    ∃ r, nt2.networkQueue = nt.networkQueue.drop k ++ r ∧
      r.Sublist (nt.networkQueue.take k) := by
  intro k
  induction k with
  | zero =>
    intro nt nt2 _ hok
    rw [drainOnce] at hok
    cases hok
    exact ⟨[], by simp, by simp⟩
  | succ k ih =>
    intro nt nt2 hlen hok
    rw [drainOnce] at hok
    cases hq : nt.networkQueue with
    | nil =>
      rw [hq] at hlen
      simp at hlen
    | cons tx rest =>
      rw [hq] at hok hlen
      dsimp only at hok
      rw [List.length_cons] at hlen
      cases hat : attempToAddTransaction tx { nt with networkQueue := rest } with
      | error e =>
        rw [hat] at hok
        cases hok
      | ok ntm =>
        rw [hat] at hok
        dsimp only at hok
        rcases attempt_queue _ _ _ hat with hq1 | hq1
        · dsimp only at hq1
          have hlen2 : k ≤ ntm.networkQueue.length := by
            rw [hq1]
            omega
          obtain ⟨r, hr1, hr2⟩ := ih ntm nt2 hlen2 hok
          refine ⟨r, ?_, ?_⟩
          · rw [List.drop_succ_cons, hr1, hq1]
          · rw [List.take_succ_cons]
            rw [hq1] at hr2
            exact hr2.cons tx
        · dsimp only at hq1
          have hkr : k ≤ rest.length := by omega
          have hlen2 : k ≤ ntm.networkQueue.length := by
            rw [hq1]
            rw [List.length_append]
            omega
          obtain ⟨r, hr1, hr2⟩ := ih ntm nt2 hlen2 hok
          refine ⟨tx :: r, ?_, ?_⟩
          · rw [List.drop_succ_cons]
            rw [hq1, List.drop_append_of_le_length hkr] at hr1
            rw [hr1, List.append_assoc]
            rfl
          · rw [List.take_succ_cons]
            rw [hq1, List.take_append_of_le_length hkr] at hr2
            exact hr2.cons₂ tx

theorem listener_queue_sublist (msg : AddTxMsg) (nt nt2 : NetTangle)
    (hok : addTransactionListener msg nt = Except.ok nt2) :
    nt2.networkQueue.Sublist (nt.networkQueue ++ [msg.transaction]) := by
  rw [addTransactionListener] at hok
  by_cases hv : msg.transaction.hash ≠ msg.validityHash
  · rw [if_pos hv] at hok
    cases hok
  · rw [if_neg hv] at hok
    cases hat : attempToAddTransaction msg.transaction nt with
    | error e =>
      rw [hat] at hok
      cases hok
    | ok nt1 =>
      rw [hat] at hok
      dsimp only at hok
      cases hd : drainOnce nt1.networkQueue.length nt1 with
      | error e =>
        rw [hd] at hok
        cases hok
      | ok ntx =>
        rw [hd] at hok
        cases hok
        obtain ⟨r, hr1, hr2⟩ := drain_sublist nt1.networkQueue.length nt1 nt2
          (le_refl _) hd
        rw [List.drop_length, List.nil_append] at hr1
        rw [List.take_length] at hr2
        rw [hr1]
        rcases attempt_queue _ _ _ hat with h1 | h1
        · rw [h1] at hr2
          exact hr2.trans (List.sublist_append_left _ _)
        · rw [h1] at hr2
          exact hr2

theorem find_genesisOnly_ne (g : Node) (x : Nat) (hne : g.hash ≠ x) :
    Tangle.find (genesisOnly g) x = none := by
  rw [Tangle.find, lookupNode]
  show List.find? (fun n => n.hash == x) [g] = none
  rw [List.find?_cons_of_neg _ (by simp [hne])]
  rfl

theorem find_genesisOnly_self (g : Node) :
    Tangle.find (genesisOnly g) g.hash = some g := by
  rw [Tangle.find, lookupNode]
  show List.find? (fun n => n.hash == g.hash) [g] = some g
  rw [List.find?_cons_of_pos _ (by simp)]

/-- Claim C4.  If an `AddTransactionRequest` for transaction T2, whose only
parent is T1, arrives at a tangle holding only the genesis before T1 does,
T2 is appended to the network queue instead of being inserted (the tangle
is unchanged); after the message for T1 is processed - which inserts T1 and
drains the queue once - both T1 and T2 are found in the DAG and T2 is a
child of T1, with the queue empty.  Moreover, for EVERY listener call that
returns, the resulting network queue is a sublist of the prior queue
followed by the carried transaction: still-orphaned queue items remain in
their original relative order. -/
theorem claim_C4 (g : Node) (t1 t2 : Tx)
    (h1p : t1.parentHashes = [g.hash])
    (h2p : t2.parentHashes = [t1.hash]) (hne1 : t1.hash ≠ g.hash)
    (hne2 : t2.hash ≠ g.hash) (hne3 : t2.hash ≠ t1.hash) :
    (∃ nt1 nt2 : NetTangle,
      addTransactionListener ⟨t2.hash, t2⟩ ⟨genesisOnly g, []⟩ = Except.ok nt1 ∧
      nt1.networkQueue = [t2] ∧ nt1.tangle = genesisOnly g ∧
      addTransactionListener ⟨t1.hash, t1⟩ nt1 = Except.ok nt2 ∧
      (Tangle.find nt2.tangle t1.hash).isSome = true ∧
      (Tangle.find nt2.tangle t2.hash).isSome = true ∧
      t2.hash ∈ nt2.tangle.childrenMap t1.hash ∧
      nt2.networkQueue = []) ∧
    (∀ (msg : AddTxMsg) (nt nt2 : NetTangle),
      addTransactionListener msg nt = Except.ok nt2 →
      nt2.networkQueue.Sublist (nt.networkQueue ++ [msg.transaction])) := by
  refine ⟨?_, fun msg nt nt2 hok => listener_queue_sublist msg nt nt2 hok⟩
  -- the genesis-only tangle does not hold t1
  have hfg1 : Tangle.find (genesisOnly g) t1.hash = none :=
    find_genesisOnly_ne g t1.hash (fun hc => hne1 hc.symm)
  have hcond2 : (t2.parentHashes.all
      (fun h => (Tangle.find (genesisOnly g) h).isSome)) = false := by
    rw [h2p]
    simp [hfg1]
  -- attempting t2 while t1 is missing only enqueues it
  have hattempt2 : ∀ q : List Tx,
      attempToAddTransaction t2 ⟨genesisOnly g, q⟩ =
        Except.ok ⟨genesisOnly g, q ++ [t2]⟩ := by
    intro q
    rw [attempToAddTransaction]
    rw [if_neg (by
      show ¬ (t2.parentHashes.all
        (fun h => (Tangle.find (genesisOnly g) h).isSome)) = true
      rw [hcond2]
      exact Bool.false_ne_true)]
  have hdrain2 : drainOnce 1 ⟨genesisOnly g, [t2]⟩ =
      Except.ok ⟨genesisOnly g, [t2]⟩ := by
    rw [drainOnce]
    dsimp only
    rw [hattempt2 []]
    rfl
  have hlistener2 : addTransactionListener ⟨t2.hash, t2⟩ ⟨genesisOnly g, []⟩ =
      Except.ok ⟨genesisOnly g, [t2]⟩ := by
    rw [addTransactionListener, if_neg (fun hc => hc rfl), hattempt2 []]
    show (match drainOnce 1 ⟨genesisOnly g, [t2]⟩ with
      | Except.error e => Except.error (NetErr.addFailed e)
      | Except.ok nt2 => Except.ok nt2) = Except.ok ⟨genesisOnly g, [t2]⟩
    rw [hdrain2]
  -- inserting t1 into the genesis-only tangle succeeds
  have hfgg : Tangle.find (genesisOnly g) g.hash = some g := find_genesisOnly_self g
  have haddA : ∃ sA, Tangle.add (genesisOnly g) (txNode t1) = Except.ok sA := by
    rw [Tangle.add]
    have hpcA : parentsCheck (genesisOnly g) (txNode t1).hash (txNode t1).parents =
        Except.ok () := by
      show parentsCheck (genesisOnly g) t1.hash t1.parentHashes = Except.ok ()
      rw [h1p, parentsCheck]
      rw [if_neg (by
        intro hc
        rw [Option.isNone_iff_eq_none, hfgg] at hc
        cases hc)]
      rw [if_neg (show ¬ t1.hash ∈ (genesisOnly g).childrenMap g.hash from
        fun hc => List.not_mem_nil t1.hash hc)]
      rfl
    rw [show balLoop (genesisOnly g) (txNode t1).inputs [] = Except.ok () from rfl]
    rw [hpcA]
    exact ⟨_, rfl⟩
  obtain ⟨sA, haddA⟩ := haddA
  obtain ⟨hbA, hpcA, hgenA, hnodesA, hchfA, htipfA⟩ := add_ok_parts haddA
  have hpeA : (txNode t1).parents.isEmpty = false := by
    show t1.parentHashes.isEmpty = false
    rw [h1p]
    rfl
  have hnodesA2 : sA.nodes = [g, txNode t1] := by
    rw [hnodesA, hpeA]
    rfl
  have hchA : ∀ x, sA.childrenMap x =
      List.replicate ((txNode t1).parents.count x) t1.hash := by
    intro x
    rw [hchfA, attachAll_children]
    rfl
  have hchA1 : sA.childrenMap t1.hash = [] := by
    rw [hchA]
    show List.replicate (t1.parentHashes.count t1.hash) t1.hash = []
    rw [h1p, List.count_eq_zero.2 (by
      intro hc
      rw [List.mem_singleton] at hc
      exact hne1 hc)]
    rfl
  have hmapA : sA.nodes.map (fun n => n.hash) = [g.hash, t1.hash] := by
    rw [hnodesA2]
    rfl
  have hgn1 : g.hash ≠ t1.hash := fun hc => hne1 hc.symm
  have hfindA1 : Tangle.find sA t1.hash = some (txNode t1) := by
    rw [Tangle.find, lookupNode]
    refine find?_hash_of_mem_nodup ?_ ?_ rfl
    · rw [hmapA]
      simp [hgn1]
    · rw [hnodesA2]
      exact List.mem_cons_of_mem _ (List.mem_singleton_self _)
  -- attempting t1 on the tangle holding t2 in the queue inserts it
  have hcond1 : (t1.parentHashes.all
      (fun h => (Tangle.find (genesisOnly g) h).isSome)) = true := by
    rw [h1p]
    simp [hfgg]
  have hattempt1 : attempToAddTransaction t1 ⟨genesisOnly g, [t2]⟩ =
      Except.ok ⟨sA, [t2]⟩ := by
    rw [attempToAddTransaction]
    rw [if_pos (show (t1.parentHashes.all
      (fun h => (Tangle.find (genesisOnly g) h).isSome)) = true from hcond1)]
    rw [haddA]
  -- inserting t2 into the tangle now holding t1 succeeds
  have haddB : ∃ sB, Tangle.add sA (txNode t2) = Except.ok sB := by
    rw [Tangle.add]
    have hpcB : parentsCheck sA (txNode t2).hash (txNode t2).parents =
        Except.ok () := by
      show parentsCheck sA t2.hash t2.parentHashes = Except.ok ()
      rw [h2p, parentsCheck]
      rw [if_neg (by
        intro hc
        rw [Option.isNone_iff_eq_none, hfindA1] at hc
        cases hc)]
      rw [if_neg (show ¬ t2.hash ∈ sA.childrenMap t1.hash from by
        rw [hchA1]
        exact List.not_mem_nil t2.hash)]
      rfl
    rw [show balLoop sA (txNode t2).inputs [] = Except.ok () from rfl]
    rw [hpcB]
    exact ⟨_, rfl⟩
  obtain ⟨sB, haddB⟩ := haddB
  obtain ⟨hbB, hpcB, hgenB, hnodesB, hchfB, htipfB⟩ := add_ok_parts haddB
  have hpeB : (txNode t2).parents.isEmpty = false := by
    show t2.parentHashes.isEmpty = false
    rw [h2p]
    rfl
  have hnodesB2 : sB.nodes = [g, txNode t1, txNode t2] := by
    rw [hnodesB, hpeB]
    rw [hnodesA2]
    rfl
  have hmapB : sB.nodes.map (fun n => n.hash) = [g.hash, t1.hash, t2.hash] := by
    rw [hnodesB2]
    rfl
  have hgn2 : g.hash ≠ t2.hash := fun hc => hne2 hc.symm
  have hn12 : t1.hash ≠ t2.hash := fun hc => hne3 hc.symm
  have hnodupB : (sB.nodes.map (fun n => n.hash)).Nodup := by
    rw [hmapB]
    simp [hgn1, hgn2, hn12]
  have hfindB1 : Tangle.find sB t1.hash = some (txNode t1) := by
    rw [Tangle.find, lookupNode]
    refine find?_hash_of_mem_nodup hnodupB ?_ rfl
    rw [hnodesB2]
    exact List.mem_cons_of_mem _ (List.mem_cons_self _ _)
  have hfindB2 : Tangle.find sB t2.hash = some (txNode t2) := by
    rw [Tangle.find, lookupNode]
    refine find?_hash_of_mem_nodup hnodupB ?_ rfl
    rw [hnodesB2]
    exact List.mem_cons_of_mem _ (List.mem_cons_of_mem _ (List.mem_singleton_self _))
  have hchB1 : t2.hash ∈ sB.childrenMap t1.hash := by
    rw [hchfB, attachAll_children, hchA1]
    refine List.mem_append_right _ (List.mem_replicate.2 ⟨?_, rfl⟩)
    intro h0
    have : t1.hash ∉ (txNode t2).parents := List.count_eq_zero.1 h0
    apply this
    show t1.hash ∈ t2.parentHashes
    rw [h2p]
    exact List.mem_singleton_self _
  -- the drain after inserting t1 pops t2 and inserts it as a child of t1
  have hcondB : (t2.parentHashes.all
      (fun h => (Tangle.find sA h).isSome)) = true := by
    rw [h2p]
    simp [hfindA1]
  have hattempt2B : attempToAddTransaction t2 ⟨sA, []⟩ =
      Except.ok ⟨sB, []⟩ := by
    rw [attempToAddTransaction]
    rw [if_pos (show (t2.parentHashes.all
      (fun h => (Tangle.find sA h).isSome)) = true from hcondB)]
    rw [haddB]
  have hdrainB : drainOnce 1 ⟨sA, [t2]⟩ = Except.ok ⟨sB, []⟩ := by
    rw [drainOnce]
    dsimp only
    rw [hattempt2B]
    rfl
  have hlistener1 : addTransactionListener ⟨t1.hash, t1⟩ ⟨genesisOnly g, [t2]⟩ =
      Except.ok ⟨sB, []⟩ := by
    rw [addTransactionListener, if_neg (fun hc => hc rfl), hattempt1]
    show (match drainOnce 1 ⟨sA, [t2]⟩ with
      | Except.error e => Except.error (NetErr.addFailed e)
      | Except.ok nt2 => Except.ok nt2) = Except.ok ⟨sB, []⟩
    rw [hdrainB]
  refine ⟨⟨genesisOnly g, [t2]⟩, ⟨sB, []⟩, hlistener2, rfl, rfl, hlistener1, ?_, ?_, hchB1, rfl⟩
  · rw [hfindB1]
    rfl
  · rw [hfindB2]
    rfl

/-- Claim C4 witness: the orphan-recovery scenario instantiated at the
concrete genesis 0 and transactions 1 (parent 0) and 2 (parent 1). -/
theorem claim_C4_witness :
    (∃ nt1 nt2 : NetTangle,
      addTransactionListener ⟨c4t2.hash, c4t2⟩
          ⟨genesisOnly (mkNode 0 [] [] []), []⟩ = Except.ok nt1 ∧
      nt1.networkQueue = [c4t2] ∧ nt1.tangle = genesisOnly (mkNode 0 [] [] []) ∧
      addTransactionListener ⟨c4t1.hash, c4t1⟩ nt1 = Except.ok nt2 ∧
      (Tangle.find nt2.tangle c4t1.hash).isSome = true ∧
      (Tangle.find nt2.tangle c4t2.hash).isSome = true ∧
      c4t2.hash ∈ nt2.tangle.childrenMap c4t1.hash ∧
      nt2.networkQueue = []) ∧
    (∀ (msg : AddTxMsg) (nt nt2 : NetTangle),
      addTransactionListener msg nt = Except.ok nt2 →
      nt2.networkQueue.Sublist (nt.networkQueue ++ [msg.transaction])) :=
  claim_C4 (mkNode 0 [] [] []) c4t1 c4t2 (by decide) (by decide) (by decide)
    (by decide) (by decide)
